import Mathlib

/-!
# Verification of the layer7waf data-plane primitives

A shallow embedding, in Lean 4, of the pure algorithmic core of the
`layer7waf` repository, together with proofs (and refutations) of the
specification's quantified claims about it.

Conventions of the embedding:

* Rust machine integers (`u8`, `u32`, `u64`) are `Nat` with explicit
  reductions `% 2^w` where overflow can occur.
* Rust `f64` quantities (token counts, weighted window counts, scores)
  are modelled as exact rationals `ℚ`; `Instant` timestamps are rationals
  (seconds since an arbitrary origin).
* Byte strings are `List Nat` (each entry < 256); Rust `&str`/`String`
  values are Lean `String` or `List Char` as convenient.
* Fallible operations return `Option`; a loop whose termination is itself
  in question is given explicit fuel, `none` meaning exhaustion.
-/

namespace Layer7Waf

/-! ## CIDR prefix trie — `crates/ip-reputation/src/trie.rs`

`TrieNode` embeds the Rust struct with two optional child slots and a
terminal flag.  `insertBits`/`walkBits` embed `IpTrie::insert` and the
descent loop of `IpTrie::contains`. -/

inductive TrieNode : Type where
  | node (child0 child1 : Option TrieNode) (is_terminal : Bool)
  deriving Repr

namespace TrieNode

/-- `TrieNode::new()`: no children, not terminal. -/
def new : TrieNode := .node none none false

/-- The terminal flag of a node. -/
def isTerminal : TrieNode → Bool
  | .node _ _ t => t

/-- The child slot selected by one bit (`children[idx]` with `idx = bit`). -/
def child (b : Bool) : TrieNode → Option TrieNode
  | .node c0 c1 _ => if b then c1 else c0

end TrieNode

/-- `IpTrie::insert`, walking the given bit prefix, creating missing children
(`TrieNode::new()` for an absent slot) and marking the final node terminal. -/
def insertBits : TrieNode → List Bool → TrieNode
  | .node c0 c1 _, [] => .node c0 c1 true
  | .node c0 c1 t, b :: rest =>
      if b then .node c0 (some (insertBits ((c1.getD TrieNode.new)) rest)) t
      else .node (some (insertBits ((c0.getD TrieNode.new)) rest)) c1 t

/-- The descent loop of `IpTrie::contains`: for each bit move to the selected
child (`false` if absent) and answer `true` as soon as a visited child is
terminal.  The root's own flag is checked separately, as in the source. -/
def walkBits : TrieNode → List Bool → Bool
  | _, [] => false
  | t, b :: rest =>
      match t.child b with
      | none => false
      | some c => c.isTerminal || walkBits c rest

/-- `IpTrie::contains` restricted to one family root: root terminal check
(`/0` matches everything) followed by the bit descent. -/
def containsBits (root : TrieNode) (bits : List Bool) : Bool :=
  root.isTerminal || walkBits root bits

/-- `ip_to_bits` for a single octet: bits from bit 7 down to bit 0. -/
def octetBits (o : Nat) : List Bool :=
  [7, 6, 5, 4, 3, 2, 1, 0].map (fun i => (o >>> i) &&& 1 == 1)

/-- `ip_to_bits`: concatenation of the per-octet MSB-first bits. -/
def ipToBits (octets : List Nat) : List Bool :=
  octets.flatMap octetBits

/-- An IP address: its family together with its octets
(4 octets for IPv4, 16 for IPv6). -/
inductive IpAddr : Type where
  | v4 (octets : List Nat)
  | v6 (octets : List Nat)
  deriving Repr, DecidableEq

/-- The bit string of an address (32 bits for IPv4, 128 for IPv6). -/
def IpAddr.bits : IpAddr → List Bool
  | .v4 o => ipToBits o
  | .v6 o => ipToBits o

/-- Family tag of an address. -/
def IpAddr.isV4 : IpAddr → Bool
  | .v4 _ => true
  | .v6 _ => false

/-- A CIDR network: base address plus prefix length.  `insert` uses the
network address as produced by `IpNet::network()`; note that masking only
zeroes bits *beyond* `prefixLen`, so the first `prefixLen` bits used by
`insert` coincide with those of the unmasked base address. -/
structure Cidr : Type where
  addr : IpAddr
  prefixLen : Nat
  deriving Repr

/-- The bit prefix an inserted CIDR occupies in the trie
(`bits.iter().take(prefix_len)`). -/
def Cidr.prefixBits (c : Cidr) : List Bool :=
  c.addr.bits.take c.prefixLen

/-- The two-root trie `IpTrie`. -/
structure IpTrie : Type where
  root_v4 : TrieNode
  root_v6 : TrieNode

/-- `IpTrie::new()`. -/
def IpTrie.new : IpTrie := ⟨TrieNode.new, TrieNode.new⟩

/-- `IpTrie::insert`: pick the root by address family, insert the prefix. -/
def IpTrie.insert (t : IpTrie) (c : Cidr) : IpTrie :=
  match c.addr with
  | .v4 _ => { t with root_v4 := insertBits t.root_v4 c.prefixBits }
  | .v6 _ => { t with root_v6 := insertBits t.root_v6 c.prefixBits }

/-- `IpTrie::contains`: pick the root by the query's family, then the
root-terminal check and bit descent. -/
def IpTrie.contains (t : IpTrie) (a : IpAddr) : Bool :=
  match a with
  | .v4 _ => containsBits t.root_v4 a.bits
  | .v6 _ => containsBits t.root_v6 a.bits

/-- Building a trie from a finite list of CIDRs. -/
def IpTrie.ofList (cs : List Cidr) : IpTrie :=
  cs.foldl IpTrie.insert IpTrie.new

/-- Mathematical CIDR membership: `a` lies within network `c` iff they are of
the same address family and the network's first `prefixLen` bits are a prefix
of `a`'s bits. -/
def inNetwork (c : Cidr) (a : IpAddr) : Prop :=
  c.addr.isV4 = a.isV4 ∧ c.prefixBits <+: a.bits

instance (c : Cidr) (a : IpAddr) : Decidable (inNetwork c a) := by
  unfold inNetwork; infer_instance

/-! ### Trie correctness lemmas -/

theorem containsBits_new (bits : List Bool) : containsBits TrieNode.new bits = false := by
  cases bits with
  | nil => rfl
  | cons b rest => cases b <;> rfl

theorem containsBits_getD (c : Option TrieNode) (bits : List Bool) :
    containsBits (c.getD TrieNode.new) bits =
      (match c with | none => false | some n => containsBits n bits) := by
  cases c with
  | none => simpa using containsBits_new bits
  | some n => rfl

theorem containsBits_insertBits (t : TrieNode) (p bits : List Bool) :
    containsBits (insertBits t p) bits =
      (decide (p <+: bits) || containsBits t bits) := by
  induction p generalizing t bits with
  | nil =>
      obtain ⟨c0, c1, term⟩ := t
      simp [insertBits, containsBits, TrieNode.isTerminal, List.nil_prefix]
  | cons b p' ih =>
      obtain ⟨c0, c1, term⟩ := t
      cases bits with
      | nil =>
          have hnp : ¬ (b :: p' <+: []) := by
            intro h; exact (List.cons_ne_nil _ _) (List.prefix_nil.mp h)
          cases b <;>
            simp [insertBits, containsBits, walkBits, TrieNode.isTerminal, hnp]
      | cons b2 bits' =>
          have hlhs : containsBits (insertBits (.node c0 c1 term) (b :: p')) (b2 :: bits') =
              (term ||
                (if b2 = b then
                  containsBits (insertBits ((if b then c1 else c0).getD TrieNode.new) p') bits'
                 else
                  (match (if b2 then c1 else c0) with
                   | none => false
                   | some n => containsBits n bits'))) := by
            cases b <;> cases b2 <;>
              simp [insertBits, containsBits, walkBits, TrieNode.child,
                TrieNode.isTerminal]
          have hrhs : containsBits (TrieNode.node c0 c1 term) (b2 :: bits') =
              (term ||
                (match (if b2 then c1 else c0) with
                 | none => false
                 | some n => containsBits n bits')) := by
            cases b2 <;> cases c0 <;> cases c1 <;>
              simp [containsBits, walkBits, TrieNode.child, TrieNode.isTerminal]
          rw [hlhs, hrhs]
          by_cases hb : b2 = b
          · subst hb
            have hpref : (b2 :: p' <+: b2 :: bits') ↔ (p' <+: bits') := by
              constructor
              · intro h; exact (List.cons_prefix_cons.mp h).2
              · intro h; exact List.cons_prefix_cons.mpr ⟨rfl, h⟩
            rw [if_pos rfl, ih, containsBits_getD]
            simp only [decide_eq_decide.mpr hpref]
            rw [Bool.or_left_comm]
          · have hnp : ¬ (b :: p' <+: b2 :: bits') := by
              intro h
              exact hb ((List.cons_prefix_cons.mp h).1).symm
            rw [if_neg hb]
            simp [hnp]

theorem containsBits_foldl (ps : List (List Bool)) (t : TrieNode) (bits : List Bool) :
    containsBits (ps.foldl insertBits t) bits =
      (decide (∃ p ∈ ps, p <+: bits) || containsBits t bits) := by
  induction ps generalizing t with
  | nil => simp
  | cons p ps ih =>
      rw [List.foldl_cons, ih, containsBits_insertBits]
      by_cases h1 : p <+: bits <;> by_cases h2 : ∃ q ∈ ps, q <+: bits <;>
        simp [h1, h2]

/-- The bit prefixes a CIDR list contributes to the IPv4 root, in order. -/
def v4Prefixes (cs : List Cidr) : List (List Bool) :=
  (cs.filter (fun c => c.addr.isV4)).map Cidr.prefixBits

/-- The bit prefixes a CIDR list contributes to the IPv6 root, in order. -/
def v6Prefixes (cs : List Cidr) : List (List Bool) :=
  (cs.filter (fun c => !c.addr.isV4)).map Cidr.prefixBits

theorem foldl_insert_root_v4 (cs : List Cidr) (t : IpTrie) :
    (cs.foldl IpTrie.insert t).root_v4 = (v4Prefixes cs).foldl insertBits t.root_v4 := by
  induction cs generalizing t with
  | nil => rfl
  | cons c cs ih =>
      cases hc : c.addr with
      | v4 o =>
          rw [List.foldl_cons, ih]
          simp [v4Prefixes, IpTrie.insert, hc, IpAddr.isV4]
      | v6 o =>
          rw [List.foldl_cons, ih]
          simp [v4Prefixes, IpTrie.insert, hc, IpAddr.isV4]

theorem foldl_insert_root_v6 (cs : List Cidr) (t : IpTrie) :
    (cs.foldl IpTrie.insert t).root_v6 = (v6Prefixes cs).foldl insertBits t.root_v6 := by
  induction cs generalizing t with
  | nil => rfl
  | cons c cs ih =>
      cases hc : c.addr with
      | v4 o =>
          rw [List.foldl_cons, ih]
          simp [v6Prefixes, IpTrie.insert, hc, IpAddr.isV4]
      | v6 o =>
          rw [List.foldl_cons, ih]
          simp [v6Prefixes, IpTrie.insert, hc, IpAddr.isV4]

/-- **C1.** For every finite list of CIDRs inserted into an `IpTrie` and every
IP address `a`, `contains` answers `true` exactly when `a` lies within at
least one inserted network of `a`'s address family (and hence `false` when it
lies within none). -/
theorem C1_trie_contains_iff_member (cs : List Cidr) (a : IpAddr) :
    (IpTrie.ofList cs).contains a = true ↔ ∃ c ∈ cs, inNetwork c a := by
  cases a with
  | v4 o =>
      rw [IpTrie.ofList, IpTrie.contains, foldl_insert_root_v4, containsBits_foldl]
      simp only [IpTrie.new, containsBits_new, Bool.or_false, decide_eq_true_eq]
      constructor
      · rintro ⟨p, hp, hpref⟩
        rw [v4Prefixes, List.mem_map] at hp
        obtain ⟨c, hc, rfl⟩ := hp
        rw [List.mem_filter] at hc
        exact ⟨c, hc.1, hc.2, hpref⟩
      · rintro ⟨c, hc, hfam, hpref⟩
        refine ⟨c.prefixBits, ?_, hpref⟩
        rw [v4Prefixes, List.mem_map]
        exact ⟨c, List.mem_filter.mpr ⟨hc, hfam⟩, rfl⟩
  | v6 o =>
      rw [IpTrie.ofList, IpTrie.contains, foldl_insert_root_v6, containsBits_foldl]
      simp only [IpTrie.new, containsBits_new, Bool.or_false, decide_eq_true_eq]
      constructor
      · rintro ⟨p, hp, hpref⟩
        rw [v6Prefixes, List.mem_map] at hp
        obtain ⟨c, hc, rfl⟩ := hp
        rw [List.mem_filter] at hc
        refine ⟨c, hc.1, ?_, hpref⟩
        simpa [IpAddr.isV4] using hc.2
      · rintro ⟨c, hc, hfam, hpref⟩
        refine ⟨c.prefixBits, ?_, hpref⟩
        rw [v6Prefixes, List.mem_map]
        refine ⟨c, List.mem_filter.mpr ⟨hc, ?_⟩, rfl⟩
        simpa [IpAddr.isV4] using hfam

/-! ## Sliding-window limiter — `crates/rate-limit/src/sliding_window.rs`

`f64` counts and `Instant` timestamps are modelled as exact rationals.
`Instant::duration_since` saturates at zero, hence `durSince`.  The
window-rotation `while` loop gets explicit fuel: `none` models
non-termination (the loop spinning past any bound). -/

/-- `Instant::duration_since`, in seconds: saturates at zero. -/
def durSince (a b : ℚ) : ℚ := max (a - b) 0

theorem durSince_nonneg (a b : ℚ) : 0 ≤ durSince a b := le_max_right _ _

/-- Per-key `SlidingWindowState`.  The `window_secs` and `limit` fields of the
Rust struct are immutable copies of the limiter's configuration and are passed
as parameters instead. -/
structure SWState : Type where
  current_count : Nat
  previous_count : Nat
  window_start : ℚ
  deriving Repr, DecidableEq

/-- The window-rotation loop of `SlidingWindowLimiter::check`:
`while now - window_start >= window_secs { previous = current; current = 0;
window_start += window_secs }`, with explicit fuel. -/
def swRotate (W : ℚ) : Nat → ℚ → Nat → Nat → ℚ → Option (Nat × Nat × ℚ)
  | fuel, now, prev, cur, ws =>
      if W ≤ durSince now ws then
        match fuel with
        | 0 => none
        | fuel + 1 => swRotate W fuel now cur 0 (ws + W)
      else some (prev, cur, ws)

/-- `SlidingWindowLimiter::check` on one key's state, at time `now`.
`W` is `window_secs`, `L` the per-window `limit` (`rps * window_secs`).
The fuel given to the rotation loop is `⌈elapsed⌉`, which is shown below to
be sufficient whenever `W ≥ 1`; `none` models the loop failing to terminate. -/
def swCheck (W L : Nat) (s : SWState) (now : ℚ) : Option (Bool × SWState) :=
  match swRotate (W : ℚ) ⌈durSince now s.window_start⌉.toNat now
      s.previous_count s.current_count s.window_start with
  | none => none
  | some (prev, cur, ws) =>
      let elapsed_in_window := durSince now ws
      let elapsed_fraction := min (elapsed_in_window / (W : ℚ)) 1
      let weighted_count := (prev : ℚ) * (1 - elapsed_fraction) + (cur : ℚ)
      if weighted_count < (L : ℚ) then
        some (true, ⟨cur + 1, prev, ws⟩)
      else
        some (false, ⟨cur, prev, ws⟩)

/-- One request record of a sliding-window trace: call time, verdict, state
after the call. -/
structure SWRecord : Type where
  time : ℚ
  admitted : Bool
  post : SWState
  deriving Repr, DecidableEq

/-- Run a sequence of `check` calls for one key from a given state. -/
def swTraceAux (W L : Nat) (s : SWState) : List ℚ → Option (List SWRecord)
  | [] => some []
  | t :: ts =>
      match swCheck W L s t with
      | none => none
      | some (adm, s') => (swTraceAux W L s' ts).map (fun recs => ⟨t, adm, s'⟩ :: recs)

/-- Run a sequence of `check` calls for a fresh key.  The first call creates
the entry (`or_insert_with`: both counts zero, `window_start = now`) and then
checks against it. -/
def swTrace (W L : Nat) (times : List ℚ) : Option (List SWRecord) :=
  match times with
  | [] => some []
  | t :: ts => swTraceAux W L ⟨0, 0, t⟩ (t :: ts)

/-- Number of admitted requests of a trace falling in the closed interval
`[a, b]`. -/
def admittedIn (recs : List SWRecord) (a b : ℚ) : Nat :=
  (recs.filter (fun r => r.admitted && decide (a ≤ r.time) && decide (r.time ≤ b))).length

/-- Number of admitted requests whose post-state window is `q`. -/
def admittedInWindow (recs : List SWRecord) (q : ℚ) : Nat :=
  (recs.filter (fun r => r.admitted && decide (r.post.window_start = q))).length

/-- `SlidingWindowLimiter::new`: the per-window limit is `rps * window_secs`. -/
def swLimit (rps window_secs : Nat) : Nat := rps * window_secs

/-! ### Sliding-window lemmas -/

theorem swRotate_some (W : ℚ) (now : ℚ) (p c : Nat) (w : ℚ) :
    ∀ (fuel : Nat) (prev cur : Nat) (ws : ℚ),
      swRotate W fuel now prev cur ws = some (p, c, w) →
      durSince now w < W ∧ ws ≤ w ∧
        ((p = prev ∧ c = cur ∧ w = ws) ∨ (c = 0 ∧ ws < w)) := by
  intro fuel
  induction fuel with
  | zero =>
      intro prev cur ws h
      rw [swRotate] at h
      by_cases hc : W ≤ durSince now ws
      · simp [hc] at h
      · simp [hc] at h
        obtain ⟨rfl, rfl, rfl⟩ := h
        exact ⟨lt_of_not_le hc, le_refl _, Or.inl ⟨rfl, rfl, rfl⟩⟩
  | succ f ih =>
      intro prev cur ws h
      rw [swRotate] at h
      by_cases hc : W ≤ durSince now ws
      · simp only [hc, if_true] at h
        obtain ⟨hlt, hle, hcase⟩ := ih cur 0 (ws + W) h
        have hWpos : 0 < W := lt_of_le_of_lt (durSince_nonneg now w) hlt
        have hws : ws < w := lt_of_lt_of_le (by linarith) hle
        refine ⟨hlt, le_of_lt hws, Or.inr ⟨?_, hws⟩⟩
        rcases hcase with ⟨_, hc2, _⟩ | ⟨hc2, _⟩ <;> exact hc2
      · simp [hc] at h
        obtain ⟨rfl, rfl, rfl⟩ := h
        exact ⟨lt_of_not_le hc, le_refl _, Or.inl ⟨rfl, rfl, rfl⟩⟩

theorem swCheck_some (W L : Nat) (s : SWState) (now : ℚ) (adm : Bool) (s' : SWState)
    (h : swCheck W L s now = some (adm, s')) :
    ∃ cmid : Nat,
      ((cmid = s.current_count ∧ s'.window_start = s.window_start) ∨
       (cmid = 0 ∧ s.window_start < s'.window_start)) ∧
      (adm = true → s'.current_count = cmid + 1 ∧ (cmid : ℚ) < (L : ℚ)) ∧
      (adm = false → s'.current_count = cmid) := by
  unfold swCheck at h
  set fuel := ⌈durSince now s.window_start⌉.toNat with hfuel
  cases hrot : swRotate (W : ℚ) fuel now s.previous_count s.current_count s.window_start with
  | none => rw [hrot] at h; cases h
  | some pcw =>
      obtain ⟨prev, cur, ws⟩ := pcw
      obtain ⟨hlt, hle, hcase⟩ := swRotate_some (W : ℚ) now prev cur ws fuel _ _ _ hrot
      rw [hrot] at h
      simp only at h
      set f := min (durSince now ws / (W : ℚ)) 1 with hf
      set weighted := (prev : ℚ) * (1 - f) + (cur : ℚ) with hw
      have hcur_le : (cur : ℚ) ≤ weighted := by
        have hf1 : f ≤ 1 := min_le_right _ _
        have : 0 ≤ (prev : ℚ) * (1 - f) :=
          mul_nonneg (Nat.cast_nonneg _) (by linarith)
        linarith
      by_cases hlim : weighted < (L : ℚ)
      · rw [if_pos hlim] at h
        injection h with h2
        injection h2 with ha hs
        subst ha
        subst hs
        refine ⟨cur, ?_, fun _ => ⟨rfl, lt_of_le_of_lt hcur_le hlim⟩,
          fun hfalse => by cases hfalse⟩
        rcases hcase with ⟨_, hc2, hc3⟩ | ⟨hc2, hc3⟩
        · exact Or.inl ⟨hc2, hc3⟩
        · exact Or.inr ⟨hc2, hc3⟩
      · rw [if_neg hlim] at h
        injection h with h2
        injection h2 with ha hs
        subst ha
        subst hs
        refine ⟨cur, ?_, ?_, ?_⟩
        · rcases hcase with ⟨_, hc2, hc3⟩ | ⟨hc2, hc3⟩
          · exact Or.inl ⟨hc2, hc3⟩
          · exact Or.inr ⟨hc2, hc3⟩
        · intro htrue; cases htrue
        · intro _; rfl

theorem admittedInWindow_cons (r : SWRecord) (recs : List SWRecord) (q : ℚ) :
    admittedInWindow (r :: recs) q =
      (if r.admitted = true ∧ r.post.window_start = q then 1 else 0) +
        admittedInWindow recs q := by
  unfold admittedInWindow
  rw [List.filter_cons]
  by_cases h1 : r.admitted = true
  · by_cases h2 : r.post.window_start = q
    · rw [if_pos (by simp [h1, h2]), if_pos ⟨h1, h2⟩, List.length_cons]
      omega
    · rw [if_neg (by simp [h2]), if_neg (by rintro ⟨_, hh⟩; exact h2 hh)]
      omega
  · rw [if_neg (by simp [h1]), if_neg (by rintro ⟨hh, _⟩; exact h1 hh)]
    omega

theorem admittedInWindow_eq_zero (recs : List SWRecord) (q : ℚ)
    (h : ∀ r ∈ recs, r.post.window_start ≠ q) : admittedInWindow recs q = 0 := by
  unfold admittedInWindow
  rw [List.length_eq_zero]
  apply List.filter_eq_nil_iff.mpr
  intro r hr
  simp [h r hr]

theorem swTraceAux_window_bound (W L : Nat) :
    ∀ (times : List ℚ) (s : SWState) (recs : List SWRecord),
      swTraceAux W L s times = some recs →
      s.current_count ≤ L →
      (∀ r ∈ recs, s.window_start ≤ r.post.window_start) ∧
      (∀ q : ℚ,
        (if q = s.window_start then s.current_count else 0) + admittedInWindow recs q ≤ L) := by
  intro times
  induction times with
  | nil =>
      intro s recs h hcur
      rw [swTraceAux] at h
      obtain rfl : ([] : List SWRecord) = recs := by cases h; rfl
      refine ⟨by simp, fun q => ?_⟩
      rw [admittedInWindow]
      by_cases hq : q = s.window_start <;> simp [hq, hcur]
  | cons t ts ih =>
      intro s recs h hcur
      rw [swTraceAux] at h
      cases hchk : swCheck W L s t with
      | none => rw [hchk] at h; cases h
      | some as' =>
          obtain ⟨adm, s1⟩ := as'
          rw [hchk] at h
          simp only [Option.map_eq_some'] at h
          obtain ⟨recs', hrecs', rfl⟩ := h
          obtain ⟨cmid, hmid, hadm, hnadm⟩ := swCheck_some W L s t adm s1 hchk
          have hcur1 : s1.current_count ≤ L := by
            cases adm with
            | true =>
                obtain ⟨hc, hclt⟩ := hadm rfl
                have : cmid < L := by exact_mod_cast hclt
                omega
            | false =>
                rw [hnadm rfl]
                rcases hmid with ⟨rfl, _⟩ | ⟨rfl, _⟩
                · exact hcur
                · exact Nat.zero_le L
          obtain ⟨hmono, hbound⟩ := ih s1 recs' hrecs' hcur1
          have hs_le_s1 : s.window_start ≤ s1.window_start := by
            rcases hmid with ⟨_, heq⟩ | ⟨_, hlt⟩
            · exact le_of_eq heq.symm
            · exact le_of_lt hlt
          constructor
          · intro r hr
            rcases List.mem_cons.mp hr with rfl | hr'
            · exact hs_le_s1
            · exact le_trans hs_le_s1 (hmono r hr')
          · intro q
            rw [admittedInWindow_cons]
            have hbq := hbound q
            rcases hmid with ⟨hceq, heq⟩ | ⟨hc0, hlt⟩
            · -- no rotation: the window is unchanged
              by_cases hq : q = s.window_start
              · have hqs1 : q = s1.window_start := by rw [hq, heq]
                rw [if_pos hqs1] at hbq
                rw [if_pos hq]
                cases adm with
                | true =>
                    obtain ⟨hc, hcltQ⟩ := hadm rfl
                    have hclt : cmid < L := by exact_mod_cast hcltQ
                    rw [if_pos ⟨rfl, hqs1.symm⟩]
                    omega
                | false =>
                    have hc := hnadm rfl
                    rw [if_neg (by rintro ⟨hh, _⟩; cases hh)]
                    omega
              · rw [if_neg (fun hh => hq (hh.trans heq)), ] at hbq
                rw [if_neg hq,
                  if_neg (by rintro ⟨_, hws⟩; exact hq (hws.symm.trans heq))]
                omega
            · -- rotation: a strictly later window was entered
              by_cases hq : q = s.window_start
              · -- no record (present or future) lives in the old window
                have hnot : ∀ r ∈ recs', r.post.window_start ≠ q := by
                  intro r hr heqq
                  have h1 : s1.window_start ≤ q := heqq ▸ hmono r hr
                  rw [hq] at h1
                  exact absurd h1 (not_le.mpr hlt)
                rw [admittedInWindow_eq_zero recs' q hnot, if_pos hq,
                  if_neg (by
                    rintro ⟨_, hws⟩
                    rw [hq] at hws
                    exact absurd hws (ne_of_gt hlt))]
                omega
              · rw [if_neg hq]
                by_cases hq1 : q = s1.window_start
                · rw [if_pos hq1] at hbq
                  cases adm with
                  | true =>
                      obtain ⟨hc, hcltQ⟩ := hadm rfl
                      have hclt : cmid < L := by exact_mod_cast hcltQ
                      rw [if_pos ⟨rfl, hq1.symm⟩]
                      omega
                  | false =>
                      have hc := hnadm rfl
                      rw [if_neg (by rintro ⟨hh, _⟩; cases hh)]
                      omega
                · rw [if_neg (fun hh => hq1 hh)] at hbq
                  rw [if_neg (by rintro ⟨_, hws⟩; exact hq1 hws.symm)]
                  omega

/-- **C2 (counterexample).** With `rps = 1`, `window_secs = 1` and checks at
times `0`, `3/2` and `201/100`, all three calls are admitted, and the closed
interval `[3/2, 5/2]` of length `window_secs` contains `2` admitted requests,
exceeding `rps * window_secs = 1`.  The claimed sliding-interval bound is
therefore false. -/
theorem C2_counterexample :
    (swTrace 1 (swLimit 1 1) [0, 3/2, 201/100]).map
        (fun recs => admittedIn recs (3/2) (3/2 + 1)) = some 2 ∧
      ¬ (2 ≤ swLimit 1 1) := by
  constructor
  · with_unfolding_all rfl
  · decide

/-- **C2 (amended).** The sliding-window limiter bounds admissions *per
rotation window*, not per arbitrary interval: in any run, for every window
position `q`, at most `rps * window_secs` admitted checks have their
(post-call) `window_start` equal to `q`. -/
theorem C2_per_window_bound (rps W : Nat) (times : List ℚ) (recs : List SWRecord)
    (h : swTrace W (swLimit rps W) times = some recs) (q : ℚ) :
    admittedInWindow recs q ≤ swLimit rps W := by
  cases times with
  | nil =>
      rw [swTrace] at h
      obtain rfl : ([] : List SWRecord) = recs := by cases h; rfl
      simp [admittedInWindow]
  | cons t ts =>
      rw [swTrace] at h
      have := (swTraceAux_window_bound W (swLimit rps W) (t :: ts) ⟨0, 0, t⟩ recs h
        (Nat.zero_le _)).2 q
      rw [ite_self] at this
      omega

/-- Concrete instance discharging the hypotheses of `C2_per_window_bound`:
a single check at time `0` with `rps = window_secs = 1`. -/
theorem C2_per_window_bound_witness :
    admittedInWindow [⟨0, true, ⟨1, 0, 0⟩⟩] 0 ≤ swLimit 1 1 :=
  C2_per_window_bound 1 1 [0] [⟨0, true, ⟨1, 0, 0⟩⟩] (by with_unfolding_all rfl) 0

theorem swRotate_enough_fuel (W : Nat) (hW : 1 ≤ W) (now : ℚ) :
    ∀ (fuel : Nat) (prev cur : Nat) (ws : ℚ),
      ⌈durSince now ws / (W : ℚ)⌉.toNat ≤ fuel →
      (swRotate (W : ℚ) fuel now prev cur ws).isSome = true := by
  intro fuel
  induction fuel with
  | zero =>
      intro prev cur ws hfuel
      have hWQ : (1 : ℚ) ≤ (W : ℚ) := by exact_mod_cast hW
      have hceil : ⌈durSince now ws / (W : ℚ)⌉ ≤ 0 := by omega
      have hdiv : durSince now ws / (W : ℚ) ≤ 0 := by
        have h0 := Int.ceil_le.mp hceil
        push_cast at h0
        exact h0
      have hd : durSince now ws ≤ 0 := by
        by_contra hpos
        push_neg at hpos
        have : 0 < durSince now ws / (W : ℚ) := div_pos hpos (by linarith)
        linarith
      have hcond : ¬ ((W : ℚ) ≤ durSince now ws) := by linarith
      rw [swRotate, if_neg hcond]
      rfl
  | succ f ih =>
      intro prev cur ws hfuel
      rw [swRotate]
      by_cases hcond : (W : ℚ) ≤ durSince now ws
      · rw [if_pos hcond]
        apply ih
        have hWQ : (1 : ℚ) ≤ (W : ℚ) := by exact_mod_cast hW
        have hWpos : (0 : ℚ) < (W : ℚ) := by linarith
        have hd0 : durSince now ws = now - ws := by
          rcases max_cases (now - ws) (0 : ℚ) with ⟨h1, _⟩ | ⟨h1, _⟩
          · rw [durSince, h1]
          · exfalso
            rw [durSince, h1] at hcond
            linarith
        have hcond' : (W : ℚ) ≤ now - ws := hd0 ▸ hcond
        have hd0' : durSince now (ws + W) = now - ws - W := by
          rw [durSince, show now - (ws + (W : ℚ)) = now - ws - W by ring]
          exact max_eq_left (by linarith)
        have hquot : durSince now (ws + W) / (W : ℚ) = durSince now ws / (W : ℚ) - 1 := by
          rw [hd0, hd0', sub_div, div_self (ne_of_gt hWpos)]
        have hceil : ⌈durSince now (ws + W) / (W : ℚ)⌉ =
            ⌈durSince now ws / (W : ℚ)⌉ - 1 := by
          rw [hquot, Int.ceil_sub_one]
        have hge1 : 1 ≤ ⌈durSince now ws / (W : ℚ)⌉ := by
          have h1 : (1 : ℚ) ≤ durSince now ws / (W : ℚ) := by
            rw [le_div_iff₀ hWpos, one_mul, hd0]
            exact hcond'
          calc (1 : ℤ) = ⌈(1 : ℚ)⌉ := by rw [Int.ceil_one]
            _ ≤ _ := Int.ceil_le_ceil h1
        omega
      · rw [if_neg hcond]
        rfl

/-- **C10.** Termination of the window-rotation loop.  (i) Whenever
`window_secs ≥ 1`, fuel `⌈elapsed / window_secs⌉` suffices for the rotation
loop — it performs at most that many iterations, each advancing
`window_start` by the positive window duration; (ii) hence
`SlidingWindowLimiter::check` terminates on every call when
`window_secs ≥ 1`; (iii) whereas with `window_secs = 0` (which the spec
permits) the loop exhausts any amount of fuel once time has elapsed,
i.e. it never terminates. -/
theorem C10_rotation_termination :
    (∀ (W : Nat) (fuel : Nat) (now : ℚ) (prev cur : Nat) (ws : ℚ),
        1 ≤ W →
        ⌈durSince now ws / (W : ℚ)⌉.toNat ≤ fuel →
        (swRotate (W : ℚ) fuel now prev cur ws).isSome = true) ∧
    (∀ (W L : Nat) (s : SWState) (now : ℚ),
        1 ≤ W → (swCheck W L s now).isSome = true) ∧
    (∀ (fuel : Nat) (now : ℚ) (prev cur : Nat) (ws : ℚ),
        0 < durSince now ws →
        swRotate (0 : ℚ) fuel now prev cur ws = none) := by
  refine ⟨?_, ?_, ?_⟩
  · intro W fuel now prev cur ws hW hfuel
    exact swRotate_enough_fuel W hW now fuel prev cur ws hfuel
  · intro W L s now hW
    have hWQ : (1 : ℚ) ≤ (W : ℚ) := by exact_mod_cast hW
    have hWpos : (0 : ℚ) < (W : ℚ) := by linarith
    have hle : durSince now s.window_start / (W : ℚ) ≤ durSince now s.window_start :=
      div_le_self (durSince_nonneg _ _) hWQ
    have hceil := Int.ceil_le_ceil hle
    have hfuel : ⌈durSince now s.window_start / (W : ℚ)⌉.toNat ≤
        ⌈durSince now s.window_start⌉.toNat := by omega
    have hsome := swRotate_enough_fuel W hW now
      ⌈durSince now s.window_start⌉.toNat s.previous_count s.current_count
      s.window_start hfuel
    rw [swCheck]
    obtain ⟨pcw, hpcw⟩ := Option.isSome_iff_exists.mp hsome
    rw [hpcw]
    obtain ⟨prev, cur, ws⟩ := pcw
    by_cases hlim :
        (prev : ℚ) * (1 - min (durSince now ws / (W : ℚ)) 1) + (cur : ℚ) < (L : ℚ) <;>
      simp [hlim]
  · intro fuel
    induction fuel with
    | zero =>
        intro now prev cur ws hpos
        rw [swRotate, if_pos (durSince_nonneg now ws)]
    | succ f ih =>
        intro now prev cur ws hpos
        rw [swRotate, if_pos (durSince_nonneg now ws)]
        simpa using ih now cur 0 ws (by simpa using hpos)

/-- Concrete instance discharging the hypotheses of all three parts of
`C10_rotation_termination`. -/
theorem C10_rotation_termination_witness :
    (swRotate (1 : ℚ) 2 2 0 0 0).isSome = true ∧
      (swCheck 1 5 ⟨0, 0, 0⟩ 2).isSome = true ∧
      swRotate (0 : ℚ) 5 1 0 0 0 = none :=
  ⟨C10_rotation_termination.1 1 2 2 0 0 0 (by decide)
      (of_decide_eq_true (by with_unfolding_all rfl)),
    C10_rotation_termination.2.1 1 5 ⟨0, 0, 0⟩ 2 (by decide),
    C10_rotation_termination.2.2 5 1 0 0 0
      (of_decide_eq_true (by with_unfolding_all rfl))⟩

/-! ## Token-bucket limiter — `crates/rate-limit/src/token_bucket.rs` -/

/-- Per-key `TokenBucketState`.  The `rate` and `burst` fields of the Rust
struct are immutable copies of the limiter's configuration and are passed as
parameters instead. -/
structure TBState : Type where
  tokens : ℚ
  last_refill : ℚ
  deriving Repr, DecidableEq

/-- `TokenBucketLimiter::check` on one key's state at time `now`: refill by
`elapsed * rate` capped at `burst`, stamp `last_refill`, then consume one
token if at least one is available. -/
def tbCheck (rate burst : ℚ) (s : TBState) (now : ℚ) : Bool × TBState :=
  let elapsed := durSince now s.last_refill
  let tokens := min (s.tokens + elapsed * rate) burst
  if 1 ≤ tokens then (true, ⟨tokens - 1, now⟩) else (false, ⟨tokens, now⟩)

/-- Run a sequence of `check` calls for one key from a given state,
returning the verdict and post-state of every call. -/
def tbTraceAux (rate burst : ℚ) (s : TBState) : List ℚ → List (Bool × TBState)
  | [] => []
  | t :: ts =>
      tbCheck rate burst s t :: tbTraceAux rate burst (tbCheck rate burst s t).2 ts

/-- Run a sequence of `check` calls for a fresh key: the first call creates
the bucket full (`tokens = burst`, `last_refill = now`) and checks against
it. -/
def tbTrace (rps burst : Nat) (times : List ℚ) : List (Bool × TBState) :=
  match times with
  | [] => []
  | t :: ts => tbTraceAux (rps : ℚ) (burst : ℚ) ⟨(burst : ℚ), t⟩ (t :: ts)

theorem tbCheck_bounds (rate burst : ℚ) (hrate : 0 ≤ rate) (hburst : 0 ≤ burst)
    (s : TBState) (now : ℚ) (h0 : 0 ≤ s.tokens) :
    0 ≤ (tbCheck rate burst s now).2.tokens ∧
      (tbCheck rate burst s now).2.tokens ≤ burst ∧
      (tbCheck rate burst s now).2.last_refill = now := by
  unfold tbCheck
  have helap : 0 ≤ durSince now s.last_refill := durSince_nonneg _ _
  have hfill : 0 ≤ s.tokens + durSince now s.last_refill * rate := by
    have := mul_nonneg helap hrate
    linarith
  have hle : min (s.tokens + durSince now s.last_refill * rate) burst ≤ burst :=
    min_le_right _ _
  by_cases hc : 1 ≤ min (s.tokens + durSince now s.last_refill * rate) burst
  · rw [if_pos hc]
    refine ⟨?_, ?_, rfl⟩
    · show (0 : ℚ) ≤ min (s.tokens + durSince now s.last_refill * rate) burst - 1
      linarith
    · show min (s.tokens + durSince now s.last_refill * rate) burst - 1 ≤ burst
      linarith
  · rw [if_neg hc]
    exact ⟨le_min hfill hburst, hle, rfl⟩

theorem tbTraceAux_bounds (rate burst : ℚ) (hrate : 0 ≤ rate) (hburst : 0 ≤ burst) :
    ∀ (times : List ℚ) (s : TBState), 0 ≤ s.tokens →
      (∀ r ∈ tbTraceAux rate burst s times, 0 ≤ r.2.tokens ∧ r.2.tokens ≤ burst) ∧
      (tbTraceAux rate burst s times).map (fun r => r.2.last_refill) = times := by
  intro times
  induction times with
  | nil => intro s _; exact ⟨by simp [tbTraceAux], by simp [tbTraceAux]⟩
  | cons t ts ih =>
      intro s h0
      obtain ⟨hlo, hhi, hlr⟩ := tbCheck_bounds rate burst hrate hburst s t h0
      obtain ⟨hmem, hmap⟩ := ih (tbCheck rate burst s t).2 hlo
      constructor
      · intro r hr
        rw [tbTraceAux] at hr
        rcases List.mem_cons.mp hr with heq | hr'
        · have : r.2 = (tbCheck rate burst s t).2 := by
            rw [heq]
          rw [this]
          exact ⟨hlo, hhi⟩
        · exact hmem r hr'
      · rw [tbTraceAux]
        simp only [List.map_cons, hlr, hmap]

/-- **C3.** For every key and every sequence of `TokenBucketLimiter::check`
calls at non-decreasing times, the bucket state satisfies
`0 ≤ tokens ≤ burst` after each call, and `last_refill` is monotonically
non-decreasing across calls. -/
theorem C3_token_bucket_invariants (rps burst : Nat) (times : List ℚ)
    (htimes : times.Chain' (· ≤ ·)) :
    (∀ r ∈ tbTrace rps burst times, 0 ≤ r.2.tokens ∧ r.2.tokens ≤ (burst : ℚ)) ∧
    ((tbTrace rps burst times).map (fun r => r.2.last_refill)).Chain' (· ≤ ·) := by
  cases times with
  | nil => exact ⟨by simp [tbTrace], by simp [tbTrace]⟩
  | cons t ts =>
      have hrate : (0 : ℚ) ≤ (rps : ℚ) := Nat.cast_nonneg _
      have hburst : (0 : ℚ) ≤ (burst : ℚ) := Nat.cast_nonneg _
      obtain ⟨hmem, hmap⟩ := tbTraceAux_bounds (rps : ℚ) (burst : ℚ) hrate hburst
        (t :: ts) ⟨(burst : ℚ), t⟩ hburst
      exact ⟨fun r hr => hmem r hr, by rw [tbTrace, hmap]; exact htimes⟩

/-- Concrete instance discharging the hypothesis of
`C3_token_bucket_invariants`: two checks at times `0` and `1/2`. -/
theorem C3_token_bucket_invariants_witness :
    (∀ r ∈ tbTrace 10 5 [0, 1/2], 0 ≤ r.2.tokens ∧ r.2.tokens ≤ (5 : ℚ)) ∧
      ((tbTrace 10 5 [0, 1/2]).map (fun r => r.2.last_refill)).Chain' (· ≤ ·) :=
  C3_token_bucket_invariants 10 5 [0, 1/2]
    (List.chain'_cons.mpr ⟨of_decide_eq_true (by with_unfolding_all rfl),
      List.chain'_singleton _⟩)

/-! ## SHA-256, HMAC-SHA256, hex and UTF-8

The repository delegates hashing to the `sha2`/`hmac`/`hex` crates.  These
are standard algorithms; they are embedded here in full (FIPS 180-4 /
RFC 2104) over byte lists, with 32-bit words as `Nat` reduced `% 2^32`. -/

/-- Reduce to a 32-bit word. -/
def w32 (x : Nat) : Nat := x % 4294967296

/-- 32-bit right rotation. -/
def rotr32 (n x : Nat) : Nat := w32 ((x >>> n) ||| (x <<< (32 - n)))

def sha256ch (x y z : Nat) : Nat := (x &&& y) ^^^ ((x ^^^ 4294967295) &&& z)

def sha256maj (x y z : Nat) : Nat := (x &&& y) ^^^ (x &&& z) ^^^ (y &&& z)

def bsig0 (x : Nat) : Nat := rotr32 2 x ^^^ rotr32 13 x ^^^ rotr32 22 x

def bsig1 (x : Nat) : Nat := rotr32 6 x ^^^ rotr32 11 x ^^^ rotr32 25 x

def ssig0 (x : Nat) : Nat := rotr32 7 x ^^^ rotr32 18 x ^^^ (x >>> 3)

def ssig1 (x : Nat) : Nat := rotr32 17 x ^^^ rotr32 19 x ^^^ (x >>> 10)

/-- The SHA-256 round constants (FIPS 180-4 §4.2.2, written in decimal). -/
def sha256K : List Nat :=
  [1116352408, 1899447441, 3049323471, 3921009573, 961987163, 1508970993,
   2453635748, 2870763221, 3624381080, 310598401, 607225278, 1426881987,
   1925078388, 2162078206, 2614888103, 3248222580, 3835390401, 4022224774,
   264347078, 604807628, 770255983, 1249150122, 1555081692, 1996064986,
   2554220882, 2821834349, 2952996808, 3210313671, 3336571891, 3584528711,
   113926993, 338241895, 666307205, 773529912, 1294757372, 1396182291,
   1695183700, 1986661051, 2177026350, 2456956037, 2730485921, 2820302411,
   3259730800, 3345764771, 3516065817, 3600352804, 4094571909, 275423344,
   430227734, 506948616, 659060556, 883997877, 958139571, 1322822218,
   1537002063, 1747873779, 1955562222, 2024104815, 2227730452, 2361852424,
   2428436474, 2756734187, 3204031479, 3329325298]

/-- The SHA-256 initial hash value (FIPS 180-4 §5.3.3, written in decimal). -/
def sha256H0 : List Nat :=
  [1779033703, 3144134277, 1013904242, 2773480762,
   1359893119, 2600822924, 528734635, 1541459225]

/-- A 64-bit big-endian length field. -/
def be64 (n : Nat) : List Nat :=
  [(n >>> 56) % 256, (n >>> 48) % 256, (n >>> 40) % 256, (n >>> 32) % 256,
   (n >>> 24) % 256, (n >>> 16) % 256, (n >>> 8) % 256, n % 256]

/-- SHA-256 padding: `0x80`, zeros to 56 mod 64, then the bit length. -/
def sha256Pad (msg : List Nat) : List Nat :=
  msg ++ [0x80] ++ List.replicate ((64 - ((msg.length + 9) % 64)) % 64) 0 ++
    be64 (8 * msg.length)

/-- Big-endian 32-bit words from bytes. -/
def toWords : List Nat → List Nat
  | b0 :: b1 :: b2 :: b3 :: rest =>
      (b0 * 16777216 + b1 * 65536 + b2 * 256 + b3) :: toWords rest
  | _ => []

/-- Message-schedule extension: prepend `n` new words to the reversed
schedule. -/
def scheduleAux : Nat → List Nat → List Nat
  | 0, acc => acc
  | n + 1, acc =>
      scheduleAux n
        (w32 (ssig1 (acc.getD 1 0) + acc.getD 6 0 + ssig0 (acc.getD 14 0) +
          acc.getD 15 0) :: acc)

/-- The 64-word SHA-256 message schedule of one block. -/
def schedule (w16 : List Nat) : List Nat := (scheduleAux 48 w16.reverse).reverse

/-- One SHA-256 compression round on the state `[a,b,c,d,e,f,g,h]`. -/
def compressStep (st : List Nat) (kw : Nat × Nat) : List Nat :=
  match st with
  | [a, b, c, d, e, f, g, h] =>
      let t1 := w32 (h + bsig1 e + sha256ch e f g + kw.1 + kw.2)
      let t2 := w32 (bsig0 a + sha256maj a b c)
      [w32 (t1 + t2), a, b, c, w32 (d + t1), e, f, g]
  | other => other

/-- SHA-256 compression of one 64-byte block into the chaining value. -/
def compressBlock (h : List Nat) (block : List Nat) : List Nat :=
  let st := (sha256K.zip (schedule (toWords block))).foldl compressStep h
  (h.zip st).map (fun p => w32 (p.1 + p.2))

/-- Fold the compression function over consecutive 64-byte blocks.  The
fuel (first argument) only bounds the recursion; any fuel at least the
number of remaining bytes is enough, since every step consumes 64. -/
def sha256Iter : Nat → List Nat → List Nat → List Nat
  | 0, h, _ => h
  | _ + 1, h, [] => h
  | fuel + 1, h, b :: rest =>
      sha256Iter fuel (compressBlock h (List.take 64 (b :: rest)))
        (List.drop 64 (b :: rest))

/-- SHA-256 of a byte list (32 bytes of output). -/
def sha256 (msg : List Nat) : List Nat :=
  let padded := sha256Pad msg
  (sha256Iter padded.length sha256H0 padded).flatMap
    (fun wd => [(wd >>> 24) % 256, (wd >>> 16) % 256, (wd >>> 8) % 256, wd % 256])

/-- HMAC-SHA256 (RFC 2104) with a 64-byte block size. -/
def hmacSha256 (key msg : List Nat) : List Nat :=
  let k0 := if 64 < key.length then sha256 key else key
  let kpad := k0 ++ List.replicate (64 - k0.length) 0
  sha256 ((kpad.map (fun b => b ^^^ 0x5c)) ++
    sha256 ((kpad.map (fun b => b ^^^ 0x36)) ++ msg))

/-- Lower-case hex digit. -/
def hexChar (n : Nat) : Char :=
  if n < 10 then Char.ofNat (48 + n) else Char.ofNat (87 + n)

/-- `hex::encode`: lower-case hex characters of a byte list. -/
def hexEncode (bytes : List Nat) : List Char :=
  bytes.flatMap (fun b => [hexChar (b / 16), hexChar (b % 16)])

/-- UTF-8 encoding of one scalar value. -/
def utf8Bytes (c : Char) : List Nat :=
  let n := c.toNat
  if n < 0x80 then [n]
  else if n < 0x800 then [0xC0 ||| (n >>> 6), 0x80 ||| (n &&& 0x3F)]
  else if n < 0x10000 then
    [0xE0 ||| (n >>> 12), 0x80 ||| ((n >>> 6) &&& 0x3F), 0x80 ||| (n &&& 0x3F)]
  else
    [0xF0 ||| (n >>> 18), 0x80 ||| ((n >>> 12) &&& 0x3F),
     0x80 ||| ((n >>> 6) &&& 0x3F), 0x80 ||| (n &&& 0x3F)]

/-- The UTF-8 bytes of a string (`str::as_bytes`).  Rust `&str` values are
modelled as `List Char` (their scalar values). -/
def strBytes (s : List Char) : List Nat := s.flatMap utf8Bytes

/-- `sha256_hex` of `captcha.rs`. -/
def sha256_hex (data : List Nat) : List Char := hexEncode (sha256 data)

/-- `compute_hmac` of `js_challenge.rs` (the same computation appears in
`captcha.rs` and `honeypot.rs`): hex-encoded HMAC-SHA256 of UTF-8 strings. -/
def compute_hmac (secret data : List Char) : List Char :=
  hexEncode (hmacSha256 (strBytes secret) (strBytes data))

/-! ## Cookie extraction and URL-decoding —
`crates/bot-detect/src/js_challenge.rs` and
`crates/anti-scraping/src/captcha.rs`

The two crates carry two distinct private `urldecode` helpers: the
`js_challenge.rs` one decodes only `%XX` escapes, the `captcha.rs` one
additionally maps `+` to a space. -/

/-- `str::split(sep)`: split on every occurrence of a separator character;
adjacent separators yield empty parts, and the empty string yields one empty
part. -/
def splitSepAux (sep : Char) : List Char → List Char → List (List Char)
  | [], acc => [acc.reverse]
  | c :: rest, acc =>
      if c = sep then acc.reverse :: splitSepAux sep rest []
      else splitSepAux sep rest (c :: acc)

/-- `str::split(sep)` from the start of a string. -/
def splitSep (sep : Char) (s : List Char) : List (List Char) :=
  splitSepAux sep s []

/-- Unicode `White_Space` code points, as used by Rust's `char::is_whitespace`
and `str::trim`. -/
def rustIsWhitespace (c : Char) : Bool :=
  [0x09, 0x0A, 0x0B, 0x0C, 0x0D, 0x20, 0x85, 0xA0, 0x1680,
   0x2000, 0x2001, 0x2002, 0x2003, 0x2004, 0x2005, 0x2006, 0x2007, 0x2008,
   0x2009, 0x200A, 0x2028, 0x2029, 0x202F, 0x205F, 0x3000].contains c.toNat

/-- `str::trim`: strip whitespace from both ends. -/
def rustTrim (s : List Char) : List Char :=
  ((s.dropWhile rustIsWhitespace).reverse.dropWhile rustIsWhitespace).reverse

/-- `str::strip_prefix`. -/
def stripPrefix (pre s : List Char) : Option (List Char) :=
  if pre.isPrefixOf s then some (s.drop pre.length) else none

/-- The numeric value of one hex digit, as accepted by
`u8::from_str_radix(_, 16)`. -/
def radix16Digit (c : Char) : Option Nat :=
  if '0' ≤ c ∧ c ≤ '9' then some (c.toNat - 48)
  else if 'a' ≤ c ∧ c ≤ 'f' then some (c.toNat - 87)
  else if 'A' ≤ c ∧ c ≤ 'F' then some (c.toNat - 55)
  else none

/-- `u8::from_str_radix(s, 16)`: an optional leading `+`, then at least one
hex digit.  (A leading `-` is rejected for unsigned types; at most two
digits are ever passed here, so overflow cannot occur.) -/
def parseRadix16U8 (s : List Char) : Option Nat :=
  let digits := match s with
    | '+' :: rest => rest
    | _ => s
  match digits with
  | [] => none
  | _ =>
      digits.foldl (fun acc c => acc.bind fun a => (radix16Digit c).map (a * 16 + ·))
        (some 0)

/-- The `urldecode` of `js_challenge.rs`: `%XX` escapes only; every other
character — including `+` — is copied through unchanged.  A `%` consumes up
to two following characters; if fewer than two remain, or they fail to parse,
the consumed characters are emitted literally after the `%`. -/
def urldecodeJs : List Char → List Char
  | [] => []
  | c :: rest =>
      if c = '%' then
        match rest with
        | [] => ['%']
        | [c1] => ['%', c1]
        | c1 :: c2 :: rest2 =>
            match parseRadix16U8 [c1, c2] with
            | some b => Char.ofNat b :: urldecodeJs rest2
            | none => '%' :: c1 :: c2 :: urldecodeJs rest2
      else c :: urldecodeJs rest

/-- The `urldecode` of `captcha.rs`: like the `js_challenge.rs` one, but maps
`+` to a space, and parses even a single trailing character after `%` (no
length-2 check, and `u8::from_str_radix` accepts one digit). -/
def urldecodeCaptcha : List Char → List Char
  | [] => []
  | c :: rest =>
      if c = '%' then
        match rest with
        | [] => ['%']
        | [c1] =>
            match parseRadix16U8 [c1] with
            | some b => [Char.ofNat b]
            | none => ['%', c1]
        | c1 :: c2 :: rest2 =>
            match parseRadix16U8 [c1, c2] with
            | some b => Char.ofNat b :: urldecodeCaptcha rest2
            | none => '%' :: c1 :: c2 :: urldecodeCaptcha rest2
      else if c = '+' then ' ' :: urldecodeCaptcha rest
      else c :: urldecodeCaptcha rest

/-- `extract_challenge_cookie`: split the `Cookie` header on `;`, trim each
part, take the first with prefix `__l7w_bc=`, URL-decode its value. -/
def extract_challenge_cookie (cookie_header : List Char) : Option (List Char) :=
  (splitSep ';' cookie_header).findSome? fun part =>
    (stripPrefix "__l7w_bc=".data (rustTrim part)).map urldecodeJs

/-- `extract_captcha_cookie`: same pipeline for `__l7w_captcha=`, with the
`captcha.rs` decoder. -/
def extract_captcha_cookie (cookie_header : List Char) : Option (List Char) :=
  (splitSep ';' cookie_header).findSome? fun part =>
    (stripPrefix "__l7w_captcha=".data (rustTrim part)).map urldecodeCaptcha

/-- `str::parse::<u64>()`: an optional leading `+` then at least one ASCII
digit; the value must fit in 64 bits. -/
def rustParseU64 (s : List Char) : Option Nat :=
  let digits := match s with
    | '+' :: rest => rest
    | other => other
  if digits = [] then none
  else if digits.all Char.isDigit then
    let v := digits.foldl (fun acc c => acc * 10 + (c.toNat - 48)) 0
    if v < 2 ^ 64 then some v else none
  else none

/-- `verify_captcha_cookie` of `captcha.rs`, with the wall-clock second count
`now` passed explicitly.  (`HmacSha256::new_from_slice` accepts keys of any
length, so its error branch is unreachable.) -/
def verify_captcha_cookie (cookie_value client_ip secret : List Char)
    (ttl_secs now : Nat) : Bool :=
  match splitSep ':' cookie_value with
  | [ip, ts_str, answer_hash, hmac_hex, user_answer] =>
      if ip ≠ client_ip then false
      else
        match rustParseU64 ts_str with
        | none => false
        | some ts =>
            if ttl_secs < now - ts then false
            else
              if hmac_hex ≠ compute_hmac secret (ip ++ ':' :: ts_str ++ ':' :: answer_hash)
              then false
              else answer_hash == sha256_hex (strBytes user_answer)
  | _ => false

/-- **C8.** `verify_captcha_cookie` returns `true` exactly when the value
splits on `:` into exactly 5 parts, part 0 equals the client IP, part 1
parses as a `u64` timestamp with `now - ts ≤ ttl_secs` (saturating), part 3
equals the hex HMAC-SHA256 of `ip:ts:answer_hash` under the secret, and the
hex SHA-256 of part 4 equals part 2. -/
theorem C8_verify_captcha_iff (cookie_value client_ip secret : List Char)
    (ttl_secs now : Nat) :
    verify_captcha_cookie cookie_value client_ip secret ttl_secs now = true ↔
      ∃ p0 p1 p2 p3 p4,
        splitSep ':' cookie_value = [p0, p1, p2, p3, p4] ∧
        p0 = client_ip ∧
        (∃ ts, rustParseU64 p1 = some ts ∧ now - ts ≤ ttl_secs) ∧
        p3 = compute_hmac secret (client_ip ++ ':' :: p1 ++ ':' :: p2) ∧
        sha256_hex (strBytes p4) = p2 := by
  unfold verify_captcha_cookie
  rcases hsplit : splitSep ':' cookie_value with
    _ | ⟨p0, _ | ⟨p1, _ | ⟨p2, _ | ⟨p3, _ | ⟨p4, _ | ⟨p5, ps⟩⟩⟩⟩⟩⟩
  · simp
  · simp
  · simp
  · simp
  · simp
  · show (if p0 ≠ client_ip then false
        else match rustParseU64 p1 with
          | none => false
          | some ts =>
              if ttl_secs < now - ts then false
              else
                if p3 ≠ compute_hmac secret (p0 ++ ':' :: p1 ++ ':' :: p2) then false
                else p2 == sha256_hex (strBytes p4)) = true ↔ _
    by_cases hip : p0 = client_ip
    · subst hip
      rw [if_neg (fun h => h rfl)]
      cases hts : rustParseU64 p1 with
      | none =>
          constructor
          · intro h
            exact Bool.noConfusion h
          · rintro ⟨a0, a1, a2, a3, a4, hlist, -, ⟨ts, hts', -⟩, -, -⟩
            obtain ⟨rfl, rfl, rfl, rfl, rfl⟩ :
                p0 = a0 ∧ p1 = a1 ∧ p2 = a2 ∧ p3 = a3 ∧ p4 = a4 := by
              simpa using hlist
            rw [hts] at hts'
            cases hts'
      | some ts =>
          show (if ttl_secs < now - ts then false
              else
                if p3 ≠ compute_hmac secret (p0 ++ ':' :: p1 ++ ':' :: p2) then false
                else p2 == sha256_hex (strBytes p4)) = true ↔ _
          by_cases httl : ttl_secs < now - ts
          · rw [if_pos httl]
            simp only [Bool.false_eq_true, false_iff]
            rintro ⟨a0, a1, a2, a3, a4, hlist, -, ⟨ts', hts', httl'⟩, -, -⟩
            obtain ⟨rfl, rfl, rfl, rfl, rfl⟩ :
                p0 = a0 ∧ p1 = a1 ∧ p2 = a2 ∧ p3 = a3 ∧ p4 = a4 := by
              simpa using hlist
            rw [hts] at hts'
            obtain rfl : ts = ts' := by cases hts'; rfl
            omega
          · rw [if_neg httl]
            by_cases hhmac : p3 = compute_hmac secret (p0 ++ ':' :: p1 ++ ':' :: p2)
            · rw [if_neg (fun h => h hhmac)]
              constructor
              · intro hbeq
                exact ⟨p0, p1, p2, p3, p4, rfl, rfl, ⟨ts, hts, by omega⟩, hhmac,
                  (beq_iff_eq.mp hbeq).symm⟩
              · rintro ⟨a0, a1, a2, a3, a4, hlist, -, -, -, hsha⟩
                obtain ⟨rfl, rfl, rfl, rfl, rfl⟩ :
                    p0 = a0 ∧ p1 = a1 ∧ p2 = a2 ∧ p3 = a3 ∧ p4 = a4 := by
                  simpa using hlist
                exact beq_iff_eq.mpr hsha.symm
            · rw [if_pos (fun h => hhmac h)]
              simp only [Bool.false_eq_true, false_iff]
              rintro ⟨a0, a1, a2, a3, a4, hlist, ha0, -, hh, -⟩
              obtain ⟨rfl, rfl, rfl, rfl, rfl⟩ :
                  p0 = a0 ∧ p1 = a1 ∧ p2 = a2 ∧ p3 = a3 ∧ p4 = a4 := by
                simpa using hlist
              exact hhmac hh
    · rw [if_pos (fun h => hip h)]
      simp only [Bool.false_eq_true, false_iff]
      rintro ⟨a0, a1, a2, a3, a4, hlist, hcl, -, -, -⟩
      obtain ⟨rfl, rfl, rfl, rfl, rfl⟩ :
          p0 = a0 ∧ p1 = a1 ∧ p2 = a2 ∧ p3 = a3 ∧ p4 = a4 := by
        simpa using hlist
      exact hip hcl
  · simp

/-! ### C7 theorems -/

theorem stripPrefix_eq_some (pre s r : List Char) :
    stripPrefix pre s = some r ↔ s = pre ++ r := by
  unfold stripPrefix
  by_cases h : pre.isPrefixOf s = true
  · rw [if_pos h, Option.some.injEq]
    obtain ⟨t, rfl⟩ := List.isPrefixOf_iff_prefix.mp h
    rw [List.drop_left]
    constructor
    · rintro rfl; rfl
    · intro happ
      exact List.append_cancel_left happ
  · rw [if_neg h]
    constructor
    · intro hh; cases hh
    · intro happ
      exact absurd (List.isPrefixOf_iff_prefix.mpr ⟨r, happ.symm⟩) h

/-- **C7 (counterexample).** The claim says the URL-decoding step maps `+` to
a space; the decoder in `js_challenge.rs` leaves `+` unchanged.  For the
header `__l7w_bc=a+b` the extracted value is `a+b`, not `a b`. -/
theorem C7_counterexample :
    extract_challenge_cookie "__l7w_bc=a+b".data = some "a+b".data ∧
      "a+b".data ≠ "a b".data := by
  constructor
  · rfl
  · decide

/-- **C7 (amended).** Extraction of the `__l7w_bc` cookie splits the header
on `;`, trims each part, matches the prefix `__l7w_bc=`, and URL-decodes the
matched value, where URL-decoding maps every valid `%HH` escape to the
corresponding byte and leaves every other character — including `+` —
unchanged: (i) the `%HH` rule; (ii) the pass-through rule; (iii) extraction
fails exactly when no trimmed part carries the prefix; (iv) a successful
extraction is the first matching part, prefix-stripped and decoded. -/
theorem C7_extract_challenge_characterisation :
    (∀ (c1 c2 : Char) (rest : List Char) (b : Nat),
        parseRadix16U8 [c1, c2] = some b →
        urldecodeJs ('%' :: c1 :: c2 :: rest) = Char.ofNat b :: urldecodeJs rest) ∧
    (∀ (c : Char) (rest : List Char), c ≠ '%' →
        urldecodeJs (c :: rest) = c :: urldecodeJs rest) ∧
    (∀ header : List Char,
        extract_challenge_cookie header = none ↔
          ∀ part ∈ splitSep ';' header,
            ¬ ("__l7w_bc=".data.isPrefixOf (rustTrim part) = true)) ∧
    (∀ (header v : List Char),
        extract_challenge_cookie header = some v →
          ∃ part ∈ splitSep ';' header, ∃ raw,
            rustTrim part = "__l7w_bc=".data ++ raw ∧
            v = urldecodeJs raw) := by
  refine ⟨?_, ?_, ?_, ?_⟩
  · intro c1 c2 rest b hb
    have h1 : urldecodeJs ('%' :: c1 :: c2 :: rest) =
        (match parseRadix16U8 [c1, c2] with
          | some b => Char.ofNat b :: urldecodeJs rest
          | none => '%' :: c1 :: c2 :: urldecodeJs rest) := rfl
    rw [h1, hb]
  · intro c rest hc
    cases rest with
    | nil =>
        have h1 : urldecodeJs [c] = if c = '%' then ['%'] else c :: urldecodeJs [] := rfl
        rw [h1, if_neg hc]
    | cons d rest' =>
        cases rest' with
        | nil =>
            have h1 : urldecodeJs [c, d] =
                if c = '%' then ['%', d] else c :: urldecodeJs [d] := rfl
            rw [h1, if_neg hc]
        | cons e rest2 =>
            have h1 : urldecodeJs (c :: d :: e :: rest2) =
                (if c = '%' then
                  match parseRadix16U8 [d, e] with
                  | some b => Char.ofNat b :: urldecodeJs rest2
                  | none => '%' :: d :: e :: urldecodeJs rest2
                else c :: urldecodeJs (d :: e :: rest2)) := rfl
            rw [h1, if_neg hc]
  · intro header
    unfold extract_challenge_cookie
    rw [List.findSome?_eq_none_iff]
    constructor
    · intro h part hpart hpre
      have h2 := h part hpart
      rw [Option.map_eq_none'] at h2
      rw [stripPrefix, if_pos hpre] at h2
      cases h2
    · intro h part hpart
      rw [Option.map_eq_none', stripPrefix]
      rw [if_neg (h part hpart)]
  · intro header v hv
    unfold extract_challenge_cookie at hv
    obtain ⟨part, hpart, hsome⟩ := List.exists_of_findSome?_eq_some hv
    rw [Option.map_eq_some'] at hsome
    obtain ⟨raw, hraw, rfl⟩ := hsome
    exact ⟨part, hpart, raw, (stripPrefix_eq_some _ _ _).mp hraw, rfl⟩

/-- Concrete instances discharging the hypotheses of the four parts of
`C7_extract_challenge_characterisation`. -/
theorem C7_extract_challenge_characterisation_witness :
    urldecodeJs ('%' :: '4' :: '1' :: "x".data) = Char.ofNat 65 :: urldecodeJs "x".data ∧
      urldecodeJs ('+' :: "y".data) = '+' :: urldecodeJs "y".data ∧
      (extract_challenge_cookie "a=1".data = none ↔
        ∀ part ∈ splitSep ';' "a=1".data,
          ¬ ("__l7w_bc=".data.isPrefixOf (rustTrim part) = true)) ∧
      ∃ part ∈ splitSep ';' "__l7w_bc=ab".data, ∃ raw,
        rustTrim part = "__l7w_bc=".data ++ raw ∧
        "ab".data = urldecodeJs raw :=
  ⟨C7_extract_challenge_characterisation.1 '4' '1' "x".data 65 (by decide),
    C7_extract_challenge_characterisation.2.1 '+' "y".data (by decide),
    C7_extract_challenge_characterisation.2.2.1 "a=1".data,
    C7_extract_challenge_characterisation.2.2.2 "__l7w_bc=ab".data "ab".data rfl⟩

/-! ## Anti-scraping sessions — `crates/anti-scraping/src/session.rs` and
`crates/anti-scraping/src/lib.rs`

`f64` scores are rationals.  The path hash (`DefaultHasher`, std's SipHash)
is an arbitrary fixed function passed as a parameter `hash`: no property
proved here depends on its values.  `Instant::now()` inside
`record_request` and `SystemTime::now()` inside cookie verification are
passed explicitly (`nowI` in seconds as ℚ, `nowU` in unix seconds). -/

structure ScrapingSession : Type where
  first_seen : ℚ
  last_seen : ℚ
  request_count : Nat
  unique_path_count : Nat
  path_hashes : List Nat
  trap_triggered : Bool
  captcha_solved : Bool
  scraping_score : ℚ
  deriving Repr, DecidableEq

/-- `ScrapingSession::new()`, at creation time `now`. -/
def ScrapingSession.new (now : ℚ) : ScrapingSession :=
  ⟨now, now, 0, 0, [], false, false, 0⟩

/-- `ScrapingSession::compute_score`: trap `+1.0`; request rate above 1/s
`+0.3`; more than 20 unique paths `+0.2`; `+0.3·bot_score`; CAPTCHA solved
`−0.5`; clamped to `[0,1]`. -/
def ScrapingSession.compute_score (s : ScrapingSession) (bot_score : ℚ) : ℚ :=
  let score0 : ℚ := 0
  let score1 := score0 + (if s.trap_triggered then (1 : ℚ) else 0)
  let elapsed := durSince s.last_seen s.first_seen
  let score2 := score1 +
    (if 0 < elapsed ∧ 1 < (s.request_count : ℚ) / elapsed then (3 : ℚ)/10 else 0)
  let score3 := score2 + (if 20 < s.unique_path_count then (1 : ℚ)/5 else 0)
  let score4 := score3 + bot_score * ((3 : ℚ)/10)
  let score5 := score4 - (if s.captcha_solved then (1 : ℚ)/2 else 0)
  min (max score5 0) 1

/-- `ScrapingSession::record_request`: bump the counters, record the path
hash if new, recompute the score. -/
def ScrapingSession.record_request (hash : List Char → Nat) (s : ScrapingSession)
    (path : List Char) (bot_score : ℚ) (now : ℚ) : ScrapingSession :=
  let s1 := { s with request_count := s.request_count + 1, last_seen := now }
  let ph := hash path
  let s2 :=
    if ph ∈ s1.path_hashes then s1
    else { s1 with path_hashes := ph :: s1.path_hashes,
                   unique_path_count := s1.unique_path_count + 1 }
  { s2 with scraping_score := s2.compute_score bot_score }

/-- `AntiScrapingMode` of the configuration. -/
inductive AntiScrapingMode : Type where
  | block | challenge | detect
  deriving Repr, DecidableEq

/-- The fields of `AntiScrapingConfig` that `check_request` reads. -/
structure AntiScrapingConfig : Type where
  enabled : Bool
  mode : AntiScrapingMode
  captcha_enabled : Bool
  captcha_secret : List Char
  captcha_ttl_secs : Nat
  honeypot_enabled : Bool
  trap_path_prefix : List Char
  score_threshold : ℚ

/-- `is_trap_request` of `honeypot.rs`: `path.starts_with(prefix)`. -/
def is_trap_request (path trap_path_prefix : List Char) : Bool :=
  trap_path_prefix.isPrefixOf path

/-- `ScrapingCheckResult`.  The `Challenge` variant of the source carries the
generated CAPTCHA page, which is built with a thread-local RNG; the payload
is omitted here. -/
inductive ScrapingCheckResult : Type where
  | allow | block | challenge | detect (score : ℚ) | trapTriggered
  deriving Repr, DecidableEq

/-- Update-or-insert on the association-list model of the `DashMap`. -/
def upsertSession :
    List (List Char × ScrapingSession) → List Char → ScrapingSession →
      List (List Char × ScrapingSession)
  | [], k, v => [(k, v)]
  | (k', v') :: rest, k, v =>
      if k' = k then (k, v) :: rest else (k', v') :: upsertSession rest k v

/-- The CAPTCHA-cookie test of `check_request` (step 3):
`cookie_header.and_then(extract).map(verify).unwrap_or(false)` when the
CAPTCHA is enabled. -/
def hasValidCaptcha (cfg : AntiScrapingConfig) (client_ip : List Char)
    (cookie_header : Option (List Char)) (nowU : Nat) : Bool :=
  if cfg.captcha_enabled then
    match cookie_header with
    | none => false
    | some h =>
        match extract_captcha_cookie h with
        | none => false
        | some cookie =>
            verify_captcha_cookie cookie client_ip cfg.captcha_secret
              cfg.captcha_ttl_secs nowU
  else false

/-- `AntiScraper::check_request`: honeypot trap, CAPTCHA cookie, session
update, then the mode-specific verdict. -/
def check_request (cfg : AntiScrapingConfig) (hash : List Char → Nat)
    (sessions : List (List Char × ScrapingSession)) (client_ip path : List Char)
    (cookie_header : Option (List Char)) (bot_score : ℚ) (nowI : ℚ) (nowU : Nat) :
    ScrapingCheckResult × List (List Char × ScrapingSession) :=
  if !cfg.enabled then (.allow, sessions)
  else if cfg.honeypot_enabled && is_trap_request path cfg.trap_path_prefix then
    let s0 := (sessions.lookup client_ip).getD (ScrapingSession.new nowI)
    let s1 := { s0 with trap_triggered := true }
    let s2 := s1.record_request hash path bot_score nowI
    (.trapTriggered, upsertSession sessions client_ip s2)
  else
    let hv := hasValidCaptcha cfg client_ip cookie_header nowU
    let s0 := (sessions.lookup client_ip).getD (ScrapingSession.new nowI)
    let s1 := if hv then { s0 with captcha_solved := true } else s0
    let s2 := s1.record_request hash path bot_score nowI
    let sessions1 := upsertSession sessions client_ip s2
    if cfg.score_threshold ≤ s2.scraping_score then
      match cfg.mode with
      | .block => (.block, sessions1)
      | .challenge =>
          if hv then (.allow, sessions1)
          else if cfg.captcha_enabled then (.challenge, sessions1)
          else (.block, sessions1)
      | .detect => (.detect s2.scraping_score, sessions1)
    else
      match cfg.mode with
      | .detect => (.detect s2.scraping_score, sessions1)
      | _ => (.allow, sessions1)

theorem upsertSession_lookup (st : List (List Char × ScrapingSession))
    (k : List Char) (v : ScrapingSession) :
    (upsertSession st k v).lookup k = some v := by
  induction st with
  | nil => simp [upsertSession, List.lookup]
  | cons kv rest ih =>
      obtain ⟨k', v'⟩ := kv
      by_cases h : k' = k
      · rw [upsertSession, if_pos h]
        simp [List.lookup]
      · rw [upsertSession, if_neg h]
        rw [List.lookup]
        have : (k == k') = false := by
          rw [beq_eq_false_iff_ne]
          exact fun hh => h hh.symm
        rw [this]
        exact ih

theorem compute_score_trap_no_captcha (s : ScrapingSession) (bot_score : ℚ)
    (htrap : s.trap_triggered = true) (hcap : s.captcha_solved = false)
    (hbot : 0 ≤ bot_score) :
    s.compute_score bot_score = 1 := by
  unfold ScrapingSession.compute_score
  simp only [htrap, hcap, eq_self_iff_true, Bool.false_eq_true, if_true, if_false]
  have h1 : (0 : ℚ) ≤ (if 0 < durSince s.last_seen s.first_seen ∧
      1 < (s.request_count : ℚ) / durSince s.last_seen s.first_seen
      then (3 : ℚ)/10 else 0) := by
    split <;> norm_num
  have h2 : (0 : ℚ) ≤ (if 20 < s.unique_path_count then (1 : ℚ)/5 else 0) := by
    split <;> norm_num
  have h3 : (0 : ℚ) ≤ bot_score * ((3 : ℚ)/10) := mul_nonneg hbot (by norm_num)
  rw [max_eq_left (by linarith), min_eq_right (by linarith)]

theorem record_request_score_one (hash : List Char → Nat) (s : ScrapingSession)
    (path : List Char) (bot_score : ℚ) (now : ℚ)
    (htrap : s.trap_triggered = true) (hcap : s.captcha_solved = false)
    (hbot : 0 ≤ bot_score) :
    (s.record_request hash path bot_score now).scraping_score = 1 := by
  unfold ScrapingSession.record_request
  by_cases hmem : hash path ∈ s.path_hashes
  · simp only [hmem, if_true]
    exact compute_score_trap_no_captcha _ _ htrap hcap hbot
  · simp only [hmem, if_false]
    exact compute_score_trap_no_captcha _ _ htrap hcap hbot

/-- **C4 (amended).** Once `trap_triggered` is set for an IP's session, every
subsequent non-trap request from that IP — *provided no valid CAPTCHA cookie
is presented and the session has not solved a CAPTCHA* — is recorded with
`scraping_score = 1.0` (the clamp's upper bound), and with
`score_threshold ≤ 1.0` the configured mode fires (Block blocks, Challenge
challenges — or blocks when the CAPTCHA is disabled — and Detect reports
score 1). -/
theorem C4_trap_score_triggers_mode (cfg : AntiScrapingConfig)
    (hash : List Char → Nat) (sessions : List (List Char × ScrapingSession))
    (client_ip path : List Char) (cookie_header : Option (List Char))
    (bot_score : ℚ) (nowI : ℚ) (nowU : Nat) (s : ScrapingSession)
    (hen : cfg.enabled = true)
    (hs : sessions.lookup client_ip = some s)
    (htrap : s.trap_triggered = true)
    (hcap : s.captcha_solved = false)
    (hnottrap : (cfg.honeypot_enabled && is_trap_request path cfg.trap_path_prefix) = false)
    (hnv : hasValidCaptcha cfg client_ip cookie_header nowU = false)
    (hbot : 0 ≤ bot_score)
    (hthr : cfg.score_threshold ≤ 1) :
    ((check_request cfg hash sessions client_ip path cookie_header bot_score
        nowI nowU).2.lookup client_ip).map ScrapingSession.scraping_score = some 1 ∧
    (check_request cfg hash sessions client_ip path cookie_header bot_score
        nowI nowU).1 =
      (match cfg.mode with
        | .block => .block
        | .challenge => if cfg.captcha_enabled then .challenge else .block
        | .detect => .detect 1) := by
  unfold check_request
  rw [hen]
  simp only [Bool.not_true, Bool.false_eq_true, if_false]
  rw [hnottrap]
  simp only [Bool.false_eq_true, if_false]
  rw [hnv]
  simp only [Bool.false_eq_true, if_false]
  rw [hs]
  simp only [Option.getD_some]
  have hscore := record_request_score_one hash s path bot_score nowI htrap hcap hbot
  rw [hscore, if_pos hthr]
  cases hmode : cfg.mode with
  | block =>
      refine ⟨?_, by trivial⟩
      rw [upsertSession_lookup]
      simp [hscore]
  | challenge =>
      by_cases hce : cfg.captcha_enabled = true
      · rw [hce]
        simp only [if_true]
        refine ⟨?_, by trivial⟩
        rw [upsertSession_lookup]
        simp [hscore]
      · have hce' : cfg.captcha_enabled = false := by
          cases h : cfg.captcha_enabled
          · rfl
          · exact absurd h hce
        rw [hce']
        simp only [Bool.false_eq_true, if_false]
        refine ⟨?_, by trivial⟩
        rw [upsertSession_lookup]
        simp [hscore]
  | detect =>
      refine ⟨?_, by trivial⟩
      rw [upsertSession_lookup]
      simp [hscore]

/-- The test configuration of `anti-scraping/src/lib.rs` (mode Block,
threshold 0.6) with CAPTCHA secret `"s"`. -/
def c4Config : AntiScrapingConfig :=
  ⟨true, .block, true, "s".data, 1800, true, "/.well-known/l7w-trap".data, 3/5⟩

/-- Concrete stand-in for std's `DefaultHasher` in the C4 runs.  Only its
values on the three distinct short paths below matter, and only through
(in)equality; any fixed function gives the same outcome. -/
def c4Hash (p : List Char) : Nat := p.length

/-- A `Cookie` header carrying a CAPTCHA cookie for IP `1.2.3.4`, timestamp
`0`, answer `42` and secret `"s"` — valid by construction (the third field is
hex SHA-256 of `42`, the fourth the hex HMAC of `1.2.3.4:0:<answer_hash>`). -/
def c4CookieHeader : List Char :=
  "__l7w_captcha=1.2.3.4:0:73475cb40a568e8da8a045ced110137e159f890ac4da883b6b17dc651b3a8049:76116d0ed8b91c2dfc3af9507b1f9def73e158fdb32e406c12b943028a015eb1:42".data

set_option maxRecDepth 16384 in
/-- **C4 (counterexample).** A trap request sets `trap_triggered`, but a
subsequent non-trap request presenting a valid CAPTCHA cookie sets
`captcha_solved`, whose `−0.5` brings the recomputed score to `0.5 < 1.0`:
with mode Block and threshold `0.6 ≤ 1.0` the request is *allowed*, so the
claimed "every subsequent non-trap request scores ≥ 1.0 and triggers the
mode" is false. -/
theorem C4_counterexample :
    ((check_request c4Config c4Hash [] "1.2.3.4".data
        "/.well-known/l7w-trap/x".data none 0 0 0).2.lookup "1.2.3.4".data).map
        ScrapingSession.trap_triggered = some true ∧
    ((check_request c4Config c4Hash
        (check_request c4Config c4Hash [] "1.2.3.4".data
          "/.well-known/l7w-trap/x".data none 0 0 0).2
        "1.2.3.4".data "/a".data (some c4CookieHeader) 0 3 3).2.lookup
          "1.2.3.4".data).map ScrapingSession.scraping_score = some (1/2) ∧
    (check_request c4Config c4Hash
        (check_request c4Config c4Hash [] "1.2.3.4".data
          "/.well-known/l7w-trap/x".data none 0 0 0).2
        "1.2.3.4".data "/a".data (some c4CookieHeader) 0 3 3).1 =
      ScrapingCheckResult.allow ∧
    ¬ ((1 : ℚ) ≤ 1/2) :=
  of_decide_eq_true (by with_unfolding_all rfl)

set_option maxRecDepth 16384 in
/-- Concrete instance discharging the hypotheses of
`C4_trap_score_triggers_mode`: a session with the trap already triggered, a
plain follow-up request with no cookie, mode Block. -/
theorem C4_trap_score_triggers_mode_witness :
    ((check_request c4Config c4Hash
        [("1.2.3.4".data, ⟨0, 0, 1, 1, [23], true, false, 1⟩)]
        "1.2.3.4".data "/a".data none 0 3 3).2.lookup "1.2.3.4".data).map
        ScrapingSession.scraping_score = some 1 ∧
    (check_request c4Config c4Hash
        [("1.2.3.4".data, ⟨0, 0, 1, 1, [23], true, false, 1⟩)]
        "1.2.3.4".data "/a".data none 0 3 3).1 =
      (match c4Config.mode with
        | .block => .block
        | .challenge => if c4Config.captcha_enabled then .challenge else .block
        | .detect => .detect 1) :=
  C4_trap_score_triggers_mode c4Config c4Hash
    [("1.2.3.4".data, ⟨0, 0, 1, 1, [23], true, false, 1⟩)]
    "1.2.3.4".data "/a".data none 0 3 3 ⟨0, 0, 1, 1, [23], true, false, 1⟩
    rfl (by with_unfolding_all rfl) rfl rfl
    (by with_unfolding_all rfl) (by with_unfolding_all rfl)
    (of_decide_eq_true (by with_unfolding_all rfl))
    (of_decide_eq_true (by with_unfolding_all rfl))

/-! ## Zero-width watermarking — `crates/anti-scraping/src/obfuscation.rs`

The body is modelled as its decoded character sequence (`str::from_utf8`
has succeeded; all the source's byte offsets are char-aligned, so the byte
round-trip is the identity on valid UTF-8). -/

/-- `ZWC_ZERO`: U+200B, bit 0. -/
def ZWC0 : Char := Char.ofNat 0x200B

/-- `ZWC_ONE`: U+200C, bit 1. -/
def ZWC1 : Char := Char.ofNat 0x200C

/-- `generate_watermark`: the first 4 bytes of SHA-256 of the IP, each bit
MSB-first as a zero-width character. -/
def generate_watermark (client_ip : List Char) : List Char :=
  ((sha256 (strBytes client_ip)).take 4).flatMap
    (fun byte => (octetBits byte).map (fun bit => if bit then ZWC1 else ZWC0))

/-- The scanning loop of `inject_zero_width_chars`: at each `>` followed by a
character that is not `<`, not `\n` and not whitespace, and while fewer than
5 injections have happened, the watermark is inserted after the `>`; the
returned flag records whether any injection happened. -/
def zwGo (wm : List Char) : Nat → List Char → List Char × Bool
  | _, [] => ([], false)
  | _, [c] => ([c], false)
  | count, c :: d :: rest =>
      if c = '>' ∧ count < 5 ∧ d ≠ '<' ∧ d ≠ '\n' ∧ rustIsWhitespace d = false then
        (c :: (wm ++ (zwGo wm (count + 1) (d :: rest)).1), true)
      else
        (c :: (zwGo wm count (d :: rest)).1, (zwGo wm count (d :: rest)).2)

/-- `inject_zero_width_chars`: `None` when no injection site was found. -/
def inject_zero_width_chars (body client_ip : List Char) : Option (List Char) :=
  let r := zwGo (generate_watermark client_ip) 0 body
  if r.2 then some r.1 else none

/-- The bit-collection loop of `extract_watermark`: zero-width characters
contribute bits; any other character stops the scan once 32 bits have been
collected. -/
def extractBits : List Char → List Bool → List Bool
  | [], bits => bits
  | c :: rest, bits =>
      if c = ZWC0 then extractBits rest (bits ++ [false])
      else if c = ZWC1 then extractBits rest (bits ++ [true])
      else if 32 ≤ bits.length then bits
      else extractBits rest bits

/-- One byte from eight MSB-first bits (`byte |= 1 << (7 - i)`). -/
def bitsByte (b0 b1 b2 b3 b4 b5 b6 b7 : Bool) : Nat :=
  (if b0 then 128 else 0) + (if b1 then 64 else 0) + (if b2 then 32 else 0) +
  (if b3 then 16 else 0) + (if b4 then 8 else 0) + (if b5 then 4 else 0) +
  (if b6 then 2 else 0) + (if b7 then 1 else 0)

/-- Bytes from bit chunks of 8; a trailing incomplete chunk is dropped
(`chunk.len() == 8` guard). -/
def bitsToBytes : List Bool → List Nat
  | b0 :: b1 :: b2 :: b3 :: b4 :: b5 :: b6 :: b7 :: rest =>
      bitsByte b0 b1 b2 b3 b4 b5 b6 b7 :: bitsToBytes rest
  | _ => []

/-- `extract_watermark`: collect bits, reconstruct bytes, hex-encode the
first 4 (`&bytes[..4.min(bytes.len())]`, which is `List.take 4`). -/
def extract_watermark (text : List Char) : Option (List Char) :=
  let bits := extractBits text []
  if bits.length < 32 then none
  else some (hexEncode ((bitsToBytes bits).take 4))

/-! ### C5 theorems -/

/-- The bit a zero-width character encodes. -/
def wmBit (c : Char) : Bool := c == ZWC1

theorem extractBits_append_zwc (u : List Char) (hu : ∀ c ∈ u, c = ZWC0 ∨ c = ZWC1)
    (s : List Char) (bits : List Bool) :
    extractBits (u ++ s) bits = extractBits s (bits ++ u.map wmBit) := by
  induction u generalizing bits with
  | nil => simp
  | cons c u' ih =>
      have hbit0 : wmBit ZWC0 = false := by decide
      have hbit1 : wmBit ZWC1 = true := by decide
      rcases hu c (List.mem_cons_self _ _) with rfl | rfl
      · rw [List.cons_append, extractBits, if_pos rfl]
        rw [ih (fun x hx => hu x (List.mem_cons_of_mem _ hx))]
        rw [List.map_cons, hbit0]
        rw [List.append_assoc, List.singleton_append]
      · rw [List.cons_append, extractBits, if_neg (by decide), if_pos rfl]
        rw [ih (fun x hx => hu x (List.mem_cons_of_mem _ hx))]
        rw [List.map_cons, hbit1]
        rw [List.append_assoc, List.singleton_append]

theorem zwGo_cons (wm : List Char) (count : Nat) (d : Char) (rest : List Char) :
    ∃ t, (zwGo wm count (d :: rest)).1 = d :: t := by
  cases rest with
  | nil => exact ⟨[], rfl⟩
  | cons e rest' =>
      rw [zwGo]
      split
      · exact ⟨_, rfl⟩
      · exact ⟨_, rfl⟩

theorem zwGo_extract (wm : List Char) (hwm : ∀ c ∈ wm, c = ZWC0 ∨ c = ZWC1) :
    ∀ (body : List Char) (count : Nat) (bits : List Bool),
      (∀ c ∈ body, c ≠ ZWC0 ∧ c ≠ ZWC1) →
      bits.length < 32 →
      32 ≤ (bits ++ wm.map wmBit).length →
      (zwGo wm count body).2 = true →
      extractBits (zwGo wm count body).1 bits = bits ++ wm.map wmBit := by
  intro body
  induction body with
  | nil =>
      intro count bits _ _ _ hinj
      cases hinj
  | cons c rest ih =>
      intro count bits hnz hlen hlen2 hinj
      cases rest with
      | nil => cases hinj
      | cons d rest' =>
          have hc := hnz c (List.mem_cons_self _ _)
          have hd := hnz d (List.mem_cons_of_mem _ (List.mem_cons_self _ _))
          rw [zwGo] at hinj ⊢
          by_cases hcond : c = '>' ∧ count < 5 ∧ d ≠ '<' ∧ d ≠ '\n' ∧
              rustIsWhitespace d = false
          · rw [if_pos hcond] at hinj ⊢
            simp only
            rw [extractBits, if_neg hc.1, if_neg hc.2, if_neg (by omega)]
            rw [extractBits_append_zwc wm hwm _ bits]
            obtain ⟨t, ht⟩ := zwGo_cons wm (count + 1) d rest'
            rw [ht, extractBits, if_neg hd.1, if_neg hd.2, if_pos hlen2]
          · rw [if_neg hcond] at hinj ⊢
            simp only at hinj ⊢
            rw [extractBits, if_neg hc.1, if_neg hc.2, if_neg (by omega)]
            exact ih count bits (fun x hx => hnz x (List.mem_cons_of_mem _ hx))
              hlen hlen2 hinj

set_option maxRecDepth 16384 in
theorem bitsByte_octetBits (b : Nat) (hb : b < 256) (rest : List Bool) :
    bitsToBytes (octetBits b ++ rest) = b :: bitsToBytes rest := by
  have hoct : octetBits b =
      [(b >>> 7) &&& 1 == 1, (b >>> 6) &&& 1 == 1, (b >>> 5) &&& 1 == 1,
       (b >>> 4) &&& 1 == 1, (b >>> 3) &&& 1 == 1, (b >>> 2) &&& 1 == 1,
       (b >>> 1) &&& 1 == 1, (b >>> 0) &&& 1 == 1] := rfl
  have hbyte : ∀ x : Nat, x < 256 →
      bitsByte ((x >>> 7) &&& 1 == 1) ((x >>> 6) &&& 1 == 1) ((x >>> 5) &&& 1 == 1)
        ((x >>> 4) &&& 1 == 1) ((x >>> 3) &&& 1 == 1) ((x >>> 2) &&& 1 == 1)
        ((x >>> 1) &&& 1 == 1) ((x >>> 0) &&& 1 == 1) = x := by decide
  rw [hoct]
  simp only [List.cons_append, List.nil_append, bitsToBytes]
  rw [hbyte b hb]
  rfl

theorem bitsToBytes_flatMap (bytes : List Nat) (h : ∀ b ∈ bytes, b < 256) :
    bitsToBytes (bytes.flatMap octetBits) = bytes := by
  induction bytes with
  | nil => rfl
  | cons b bs ih =>
      rw [List.flatMap_cons,
        bitsByte_octetBits b (h b (List.mem_cons_self _ _)),
        ih (fun x hx => h x (List.mem_cons_of_mem _ hx))]

theorem sha256_bytes_lt (msg : List Nat) : ∀ b ∈ sha256 msg, b < 256 := by
  intro b hb
  unfold sha256 at hb
  simp only [List.mem_flatMap] at hb
  obtain ⟨wd, -, hmem⟩ := hb
  simp only [List.mem_cons, List.not_mem_nil, or_false] at hmem
  rcases hmem with rfl | rfl | rfl | rfl <;> exact Nat.mod_lt _ (by norm_num)

theorem compressStep_length (st : List Nat) (kw : Nat × Nat) :
    (compressStep st kw).length = st.length := by
  unfold compressStep
  split
  · simp
  · rfl

theorem foldl_compressStep_length (l : List (Nat × Nat)) (st : List Nat) :
    (l.foldl compressStep st).length = st.length := by
  induction l generalizing st with
  | nil => rfl
  | cons kw l ih => rw [List.foldl_cons, ih, compressStep_length]

theorem compressBlock_length (h : List Nat) (block : List Nat) :
    (compressBlock h block).length = h.length := by
  unfold compressBlock
  simp [foldl_compressStep_length]

theorem sha256Iter_length (fuel : Nat) :
    ∀ (h bytes : List Nat), (sha256Iter fuel h bytes).length = h.length := by
  induction fuel with
  | zero => intro h bytes; rfl
  | succ f ih =>
      intro h bytes
      cases bytes with
      | nil => rfl
      | cons b rest =>
          rw [sha256Iter, ih, compressBlock_length]

theorem sha256_length (msg : List Nat) : (sha256 msg).length = 32 := by
  unfold sha256
  have hflat : ∀ l : List Nat,
      (l.flatMap (fun wd =>
        [(wd >>> 24) % 256, (wd >>> 16) % 256, (wd >>> 8) % 256, wd % 256])).length =
        4 * l.length := by
    intro l
    induction l with
    | nil => rfl
    | cons x xs ih => simp [List.flatMap_cons, ih]; omega
  rw [hflat, sha256Iter_length]
  rfl

theorem generate_watermark_zwc (client_ip : List Char) :
    ∀ c ∈ generate_watermark client_ip, c = ZWC0 ∨ c = ZWC1 := by
  intro c hc
  unfold generate_watermark at hc
  simp only [List.mem_flatMap, List.mem_map] at hc
  obtain ⟨byte, -, bit, -, rfl⟩ := hc
  cases bit
  · exact Or.inl rfl
  · exact Or.inr rfl

theorem generate_watermark_bits (client_ip : List Char) :
    (generate_watermark client_ip).map wmBit =
      ((sha256 (strBytes client_ip)).take 4).flatMap octetBits := by
  unfold generate_watermark
  rw [List.map_flatMap]
  congr 1
  funext byte
  rw [List.map_map]
  have : wmBit ∘ (fun bit => if bit then ZWC1 else ZWC0) = id := by
    funext bit
    cases bit <;> decide
  rw [this, List.map_id]

theorem generate_watermark_length (client_ip : List Char) :
    (generate_watermark client_ip).length = 32 := by
  unfold generate_watermark
  have h4 : ((sha256 (strBytes client_ip)).take 4).length = 4 := by
    rw [List.length_take, sha256_length]
    norm_num
  generalize hl : (sha256 (strBytes client_ip)).take 4 = l at h4 ⊢
  rcases l with _ | ⟨a, _ | ⟨b, _ | ⟨c, _ | ⟨d, _ | ⟨e, tl⟩⟩⟩⟩⟩ <;>
    simp_all [octetBits]

/-- **C5 (amended).** For every body *containing no zero-width characters
U+200B/U+200C* on which injection succeeds, extracting from the injected
result recovers exactly the hex encoding of the first 4 bytes of the
SHA-256 of the IP.  (The counterexample shows the restriction is needed.) -/
theorem C5_watermark_roundtrip (body client_ip result : List Char)
    (hnz : ∀ c ∈ body, c ≠ ZWC0 ∧ c ≠ ZWC1)
    (h : inject_zero_width_chars body client_ip = some result) :
    extract_watermark result =
      some (hexEncode ((sha256 (strBytes client_ip)).take 4)) := by
  unfold inject_zero_width_chars at h
  by_cases hinj : (zwGo (generate_watermark client_ip) 0 body).2 = true
  · rw [if_pos hinj, Option.some.injEq] at h
    subst h
    have hwm := generate_watermark_zwc client_ip
    have hwmlen := generate_watermark_length client_ip
    have hbits := zwGo_extract (generate_watermark client_ip) hwm body 0 [] hnz
      (by norm_num)
      (by rw [List.length_append, List.length_map, hwmlen]; norm_num)
      hinj
    unfold extract_watermark
    rw [hbits]
    simp only [List.nil_append]
    have hlen32 : ((generate_watermark client_ip).map wmBit).length = 32 := by
      rw [List.length_map, hwmlen]
    rw [if_neg (by omega)]
    rw [generate_watermark_bits,
      bitsToBytes_flatMap _ (fun b hb => sha256_bytes_lt _ b (List.mem_of_mem_take hb))]
    rw [List.take_take, min_self]
  · rw [if_neg hinj] at h
    cases h

set_option maxRecDepth 16384 in
/-- Concrete instance discharging the hypotheses of
`C5_watermark_roundtrip`: the documentation example body. -/
theorem C5_watermark_roundtrip_witness :
    extract_watermark
        ((inject_zero_width_chars "<p>Hello</p>".data "1.2.3.4".data).getD []) =
      some (hexEncode ((sha256 (strBytes "1.2.3.4".data)).take 4)) :=
  C5_watermark_roundtrip "<p>Hello</p>".data "1.2.3.4".data
    ((inject_zero_width_chars "<p>Hello</p>".data "1.2.3.4".data).getD [])
    (of_decide_eq_true (by with_unfolding_all rfl))
    (by with_unfolding_all rfl)

set_option maxRecDepth 16384 in
/-- **C5 (counterexample).** On a body that already contains a zero-width
character before the injection site, extraction reads that stray bit first
and reconstructs shifted bytes: injection succeeds but the extracted hex is
not the hash prefix.  The claim as stated (for *every* body on which
injection succeeds) is therefore false. -/
theorem C5_counterexample :
    (inject_zero_width_chars [Char.ofNat 0x200C, '<', 'p', '>', 'x']
        "1.2.3.4".data).isSome = true ∧
    (inject_zero_width_chars [Char.ofNat 0x200C, '<', 'p', '>', 'x']
        "1.2.3.4".data).bind extract_watermark ≠
      some (hexEncode ((sha256 (strBytes "1.2.3.4".data)).take 4)) :=
  of_decide_eq_true (by with_unfolding_all rfl)

/-! ## Honeypot injection — `crates/anti-scraping/src/honeypot.rs`

`inject_trap` works on the raw byte body: it decodes it as UTF-8, searches
for `</body>` in the *lowercased* string, and splices at that byte position
in the *original* bytes — positions that disagree whenever lowercasing
changes byte lengths. -/

/-- UTF-8 decoding with full validation (`str::from_utf8`): rejects
overlong encodings, surrogates and values above U+10FFFF. -/
def utf8Decode : List Nat → Option (List Char)
  | [] => some []
  | b :: rest =>
      if b < 0x80 then (utf8Decode rest).map (Char.ofNat b :: ·)
      else if 0xC2 ≤ b ∧ b ≤ 0xDF then
        match rest with
        | [] => none
        | b2 :: rest2 =>
            if 0x80 ≤ b2 ∧ b2 ≤ 0xBF then
              (utf8Decode rest2).map
                (Char.ofNat (((b - 0xC0) <<< 6) ||| (b2 - 0x80)) :: ·)
            else none
      else if 0xE0 ≤ b ∧ b ≤ 0xEF then
        match rest with
        | b2 :: b3 :: rest3 =>
            let lo2 := if b = 0xE0 then 0xA0 else 0x80
            let hi2 := if b = 0xED then 0x9F else 0xBF
            if (lo2 ≤ b2 ∧ b2 ≤ hi2) ∧ (0x80 ≤ b3 ∧ b3 ≤ 0xBF) then
              (utf8Decode rest3).map
                (Char.ofNat (((b - 0xE0) <<< 12) ||| ((b2 - 0x80) <<< 6) |||
                  (b3 - 0x80)) :: ·)
            else none
        | _ => none
      else if 0xF0 ≤ b ∧ b ≤ 0xF4 then
        match rest with
        | b2 :: b3 :: b4 :: rest4 =>
            let lo2 := if b = 0xF0 then 0x90 else 0x80
            let hi2 := if b = 0xF4 then 0x8F else 0xBF
            if (lo2 ≤ b2 ∧ b2 ≤ hi2) ∧ (0x80 ≤ b3 ∧ b3 ≤ 0xBF) ∧
                (0x80 ≤ b4 ∧ b4 ≤ 0xBF) then
              (utf8Decode rest4).map
                (Char.ofNat (((b - 0xF0) <<< 18) ||| ((b2 - 0x80) <<< 12) |||
                  ((b3 - 0x80) <<< 6) ||| (b4 - 0x80)) :: ·)
            else none
        | _ => none
      else none

/-- Rust's `char::to_lowercase` restricted to the code points exercised in
this development: ASCII letters map down by 32, and U+0130 (`İ`) has the
Unicode SpecialCasing two-character mapping `i` + U+0307 (COMBINING DOT
ABOVE); every other character appearing here is its own lowercase. -/
def rustCharToLower (c : Char) : List Char :=
  if 'A' ≤ c ∧ c ≤ 'Z' then [Char.ofNat (c.toNat + 32)]
  else if c.toNat = 0x130 then [Char.ofNat 0x69, Char.ofNat 0x307]
  else [c]

/-- `str::find` on byte strings: byte index of the first occurrence. -/
def findSublist (needle : List Nat) : List Nat → Nat → Option Nat
  | [], i => if needle.isPrefixOf [] then some i else none
  | h :: t, i =>
      if needle.isPrefixOf (h :: t) then some i
      else findSublist needle t (i + 1)

/-- Outcome of `inject_trap`: `nothing` models Rust `None`, `panicked` an
out-of-bounds slice panic. -/
inductive TrapResult : Type where
  | nothing | panicked | ok (bytes : List Nat)
  deriving Repr, DecidableEq

/-- `inject_trap`: decode the body, lowercase it, find `</body>` in the
lowercased string's bytes, and splice the snippet at that byte position of
the *original* body — slicing panics if the position exceeds the body
length. -/
def inject_trap (body : List Nat) (trap_html : List Char) : TrapResult :=
  match utf8Decode body with
  | none => .nothing
  | some chars =>
      let lower := strBytes (chars.flatMap rustCharToLower)
      match findSublist (strBytes "</body>".data) lower 0 with
      | none => .nothing
      | some pos =>
          if pos ≤ body.length then
            .ok (body.take pos ++ strBytes trap_html ++ body.drop pos)
          else .panicked

/-- **C6.** On the valid UTF-8 body `İ</body>` the snippet lands one byte too
far — inside the multi-byte `İ` and after the `<` of `</body>` — because
`to_lowercase` maps `İ` to three bytes and the match position is taken in
the lowercased string; and on a body with eight `İ` the computed position
exceeds the body length and the slice panics.  The spec's
"splice immediately before the first case-insensitive occurrence" is the
evident intent; the code's use of lowercased-string byte offsets is a
slip. -/
theorem C6_inject_trap_misaligned :
    inject_trap (strBytes "İ</body>".data) "<X>".data =
      .ok (strBytes "İ<".data ++ strBytes "<X>".data ++ strBytes "/body>".data) ∧
    inject_trap (strBytes "İ</body>".data) "<X>".data ≠
      .ok (strBytes "İ".data ++ strBytes "<X>".data ++ strBytes "</body>".data) ∧
    inject_trap (strBytes "İİİİİİİİ</body>".data) "<X>".data = .panicked :=
  of_decide_eq_true (by with_unfolding_all rfl)

/-! ## Request-filter pipeline — `crates/proxy/src/service.rs`

`Layer7WafProxy::request_filter` after client-IP extraction, with the
collaborating components abstracted by their per-request verdicts: the
reputation engine is a function of the parsed address, the rate limiter
(when enabled) a predicate on the key string, the bot detector (when
enabled) its `BotCheckResult`, and the WAF stage the route's mode paired
with the engine's action (when a transaction runs). -/

/-- `IpAction` of the ip-reputation crate. -/
inductive RepAction : Type where
  | allow | block | noOpinion
  deriving Repr, DecidableEq

/-- `BotCheckResult` as matched in `request_filter` (the challenge HTML
payload is omitted). -/
inductive BotCheckOutcome : Type where
  | allow | block | challenge | detect (score : ℚ)
  deriving Repr, DecidableEq

/-- `WafMode` of the matched route (only `Block` blocks). -/
inductive WafMode : Type where
  | blockMode | detectMode
  deriving Repr, DecidableEq

/-- `WafAction` returned by `process_request_headers`. -/
inductive WafAction : Type where
  | pass | block (status : Nat) | redirect (status : Nat) (url : List Char)
  deriving Repr, DecidableEq

/-- The decision `request_filter` reaches: a local response (the request is
answered without an upstream) or continuation to the upstream phase.
`allowBypass` is the allowlist early `Ok(false)` that skips every later
security stage. -/
inductive FilterDecision : Type where
  | respondForbiddenIp
  | allowBypass
  | respondRateLimited
  | respondBotBlocked
  | respondChallenge
  | respondWafBlock (status : Nat)
  | respondWafRedirect (status : Nat) (url : List Char)
  | continueUpstream
  deriving Repr, DecidableEq

/-- Stage 3 (WAF request-headers phase) of `request_filter`. -/
def filterWafStage (waf : Option (WafMode × WafAction)) : FilterDecision :=
  match waf with
  | none => .continueUpstream
  | some (mode, act) =>
      match act with
      | .pass => .continueUpstream
      | .block status =>
          if mode = .blockMode then .respondWafBlock status else .continueUpstream
      | .redirect status url =>
          if mode = .blockMode then .respondWafRedirect status url
          else .continueUpstream

/-- Stage 2.5 (bot detection) onward. -/
def filterBotStage (bot : Option BotCheckOutcome)
    (waf : Option (WafMode × WafAction)) : FilterDecision :=
  match bot with
  | some .block => .respondBotBlocked
  | some .challenge => .respondChallenge
  | some (.detect _) => filterWafStage waf
  | some .allow => filterWafStage waf
  | none => filterWafStage waf

/-- Stage 2 (rate limiting) onward: consult the limiter, when enabled, with
the raw client-address string as the key. -/
def filterRateStage (rateLimiter : Option (List Char → Bool)) (clientIp : List Char)
    (bot : Option BotCheckOutcome) (waf : Option (WafMode × WafAction)) :
    FilterDecision :=
  match rateLimiter with
  | some check =>
      if check clientIp then filterBotStage bot waf else .respondRateLimited
  | none => filterBotStage bot waf

/-- `request_filter`, stage 1 onward: the IP-reputation check runs only when
the client address string parsed (`if let Ok(addr) = ctx.client_ip.parse()`);
the later stages run regardless. -/
def request_filter (parsedIp : Option IpAddr) (reputation : IpAddr → RepAction)
    (rateLimiter : Option (List Char → Bool)) (clientIp : List Char)
    (bot : Option BotCheckOutcome) (waf : Option (WafMode × WafAction)) :
    FilterDecision :=
  match parsedIp with
  | some addr =>
      match reputation addr with
      | .block => .respondForbiddenIp
      | .allow => .allowBypass
      | .noOpinion => filterRateStage rateLimiter clientIp bot waf
  | none => filterRateStage rateLimiter clientIp bot waf

/-- **C9 (counterexample).** A request whose client address fails to parse is
*not* exempt from the rate limiter: with any enabled limiter that denies the
key, `request_filter` answers 429.  The claim that both the IP stage and the
rate stage are skipped is false. -/
theorem C9_counterexample :
    request_filter none (fun _ => RepAction.block) (some (fun _ => false))
      "not-an-ip".data none none = FilterDecision.respondRateLimited ∧
    FilterDecision.respondRateLimited ≠ FilterDecision.continueUpstream := by
  constructor
  · rfl
  · decide

/-- **C9 (amended).** On an unparsable client address `request_filter` skips
only the IP-reputation stage: the outcome is exactly that of the remaining
pipeline — never a 403 from the IP stage and never the allowlist bypass —
and the rate-limit stage still runs, keyed on the raw address string, so the
request is answered 429 exactly when an enabled limiter denies that key. -/
theorem C9_parse_failure_skips_ip_stage_only (reputation : IpAddr → RepAction)
    (rateLimiter : Option (List Char → Bool)) (clientIp : List Char)
    (bot : Option BotCheckOutcome) (waf : Option (WafMode × WafAction)) :
    request_filter none reputation rateLimiter clientIp bot waf =
      filterRateStage rateLimiter clientIp bot waf ∧
    request_filter none reputation rateLimiter clientIp bot waf ≠
      FilterDecision.respondForbiddenIp ∧
    request_filter none reputation rateLimiter clientIp bot waf ≠
      FilterDecision.allowBypass ∧
    (∀ check, rateLimiter = some check →
      (request_filter none reputation rateLimiter clientIp bot waf =
          FilterDecision.respondRateLimited ↔ check clientIp = false)) := by
  have hrate_ne_ip : ∀ rl, filterRateStage rl clientIp bot waf ≠
      FilterDecision.respondForbiddenIp ∧
      filterRateStage rl clientIp bot waf ≠ FilterDecision.allowBypass := by
    intro rl
    have hbot : filterBotStage bot waf ≠ FilterDecision.respondForbiddenIp ∧
        filterBotStage bot waf ≠ FilterDecision.allowBypass := by
      have hwaf : filterWafStage waf ≠ FilterDecision.respondForbiddenIp ∧
          filterWafStage waf ≠ FilterDecision.allowBypass := by
        unfold filterWafStage
        rcases waf with - | ⟨mode, act⟩
        · exact ⟨by simp, by simp⟩
        · rcases act with - | status | ⟨status, url⟩
          · exact ⟨by simp, by simp⟩
          · by_cases hm : mode = WafMode.blockMode <;>
              simp [hm]
          · by_cases hm : mode = WafMode.blockMode <;>
              simp [hm]
      unfold filterBotStage
      rcases bot with - | b
      · exact hwaf
      · rcases b with - | - | - | sc
        · exact hwaf
        · exact ⟨by simp, by simp⟩
        · exact ⟨by simp, by simp⟩
        · exact hwaf
    unfold filterRateStage
    rcases rl with - | check
    · exact hbot
    · by_cases hchk : check clientIp = true
      · simp only [hchk, if_true]
        exact hbot
      · simp only [Bool.not_eq_true] at hchk
        simp only [hchk, Bool.false_eq_true, if_false]
        exact ⟨by simp, by simp⟩
  refine ⟨rfl, (hrate_ne_ip rateLimiter).1, (hrate_ne_ip rateLimiter).2, ?_⟩
  intro check hcheck
  subst hcheck
  show (filterRateStage (some check) clientIp bot waf =
      FilterDecision.respondRateLimited ↔ check clientIp = false)
  unfold filterRateStage
  by_cases hchk : check clientIp = true
  · simp only [hchk, if_true]
    constructor
    · intro hbotlim
      exfalso
      -- the bot/WAF stages never answer 429
      have : filterBotStage bot waf ≠ FilterDecision.respondRateLimited := by
        have hwaf : filterWafStage waf ≠ FilterDecision.respondRateLimited := by
          unfold filterWafStage
          rcases waf with - | ⟨mode, act⟩
          · simp
          · rcases act with - | status | ⟨status, url⟩
            · simp
            · by_cases hm : mode = WafMode.blockMode <;> simp [hm]
            · by_cases hm : mode = WafMode.blockMode <;> simp [hm]
        unfold filterBotStage
        rcases bot with - | b
        · exact hwaf
        · rcases b with - | - | - | sc
          · exact hwaf
          · simp
          · simp
          · exact hwaf
      exact this hbotlim
    · intro hfalse
      cases hfalse
  · simp only [Bool.not_eq_true] at hchk
    simp only [hchk, Bool.false_eq_true, if_false]

/-- Concrete instance discharging the hypothesis of the last part of
`C9_parse_failure_skips_ip_stage_only`: an enabled limiter that denies every
key. -/
theorem C9_parse_failure_skips_ip_stage_only_witness :
    request_filter none (fun _ => RepAction.noOpinion) (some (fun _ => false))
        "bad-address".data none none = FilterDecision.respondRateLimited ↔
      (fun _ : List Char => false) "bad-address".data = false :=
  (C9_parse_failure_skips_ip_stage_only (fun _ => RepAction.noOpinion)
    (some (fun _ => false)) "bad-address".data none none).2.2.2
    (fun _ => false) rfl

end Layer7Waf
